import Mathlib

/-!
# Figrid move tree (`tree.cpp`)

A shallow embedding of the move-tree engine: the left-child/right-sibling node
store, the cursor with its depth-indexed path cache, query by move and by
recording, recording insertion, subtree deletion and the Renlib codec.

Pointers are natural-number addresses into a heap (`none` is `NULL`); `new Node`
appends a cell to the heap and `delete` empties a cell.  Every operation returns
an `Option`: `none` stands for behaviour the C++ source leaves undefined (a
dereference of `NULL` or of a destroyed node, an access outside an array) or for
a loop that does not terminate (the loop ran out of its fuel, which is chosen
larger than the number of heap cells).
-/

set_option maxRecDepth 100000

namespace Figrid

/-! ## Data model -/

/-- Modelled from the spec: the board coordinate type `Move` is declared in a header
that is not part of the source. A move is a pair of coordinates; the distinguished
null position is the out-of-board pair `(31, 31)`. -/
structure Move where
  x : Nat
  y : Nat
deriving DecidableEq

/-- Modelled from the spec: the null position a default-constructed `Move` holds. -/
def Move.null_position : Move := ⟨31, 31⟩

/-- Modelled from the spec: test for the null position sentinel. -/
def Move.position_null (m : Move) : Bool := m.x == 31 && m.y == 31

/-- Modelled from the spec: `Move::rotate`, one of the 8 board symmetries chosen by
its index (0 is the identity, 1 and 2 are the quarter turns, 3 the half turn, 4 to 7
the reflections); `back` selects the inverse transform. A null position is kept. -/
def Move.rotate (board_size : Nat) (r : Nat) (back : Bool) (m : Move) : Move :=
  if m.position_null then m else
  let n := board_size - 1
  match r with
  | 1 => if back then ⟨n - m.y, m.x⟩ else ⟨m.y, n - m.x⟩
  | 2 => if back then ⟨m.y, n - m.x⟩ else ⟨n - m.y, m.x⟩
  | 3 => ⟨n - m.x, n - m.y⟩
  | 4 => ⟨m.x, n - m.y⟩
  | 5 => ⟨n - m.x, m.y⟩
  | 6 => ⟨m.y, m.x⟩
  | 7 => ⟨n - m.y, n - m.x⟩
  | _ => m

/-- Modelled from the spec: a `Recording` is the ordered sequence of its moves.
`domove` appends a move, `undo` removes the last one, `clear` empties it,
`moves_count` is the length and `recording_ptr()[i]` is the i-th element. -/
abbrev Recording := List Move

/-- Modelled from the spec: `Recording::domove` appends the move. -/
def Recording.domove (r : Recording) (m : Move) : Recording := r ++ [m]

/-- Modelled from the spec: `Recording::undo` removes the last move. -/
def Recording.undo (r : Recording) : Recording := r.dropLast

/-- Modelled from the spec: `Recording::board_rotate` rotates every move. -/
def Recording.board_rotate (board_size : Nat) (r : Nat) (back : Bool) (rec : Recording) :
    Recording :=
  rec.map (Move.rotate board_size r back)

/-- Modelled from the spec: the `Node` structure is declared in `tree.h`, which is
not part of the source. One vertex of the tree: a move, the two marks, the comment
reference, and the `down` (first child) and `right` (next sibling) links. -/
structure Node where
  pos : Move
  marked : Bool
  marked_start : Bool
  has_comment : Bool
  tag_comment : Nat
  down : Option Nat
  right : Option Nat
deriving DecidableEq

/-- The node `new Node` creates: null position, no marks, no comment, no links. -/
def Node.fresh : Node := ⟨Move.null_position, false, false, false, 0, none, none⟩

/-- The members of `Tree`, with the heap the nodes live in and the comment table
(a comment is the list of its bytes). -/
structure Tree where
  board_size : Nat
  heap : List (Option Node)
  comments : List (List Nat)
  proot : Option Nat
  ppos : Option Nat
  cdepth : Nat
  seq : List (Option Nat)
  crec : Recording
  tag_rotate : Nat
deriving DecidableEq

/-- The node stored at address `a`, `none` when the cell was never allocated or has
been destroyed. -/
def node_at (h : List (Option Node)) (a : Nat) : Option Node := h[a]?.join

/-- Dereference of a pointer: `none` for `NULL` and for a destroyed node. -/
def deref (h : List (Option Node)) (p : Option Nat) : Option Node :=
  match p with
  | none => none
  | some a => node_at h a

/-- Allocation by `new Node`: the new cell is appended, its address is returned. -/
def alloc (h : List (Option Node)) : List (Option Node) × Nat :=
  (h ++ [some Node.fresh], h.length)

/-! ## Cursor navigation -/

/-- The method `Tree::pos_goto_root`. -/
def pos_goto_root (s : Tree) : Option Tree :=
  if 0 < s.seq.length then
    some { s with ppos := s.proot, cdepth := 0, seq := s.seq.set 0 s.proot,
                  crec := [], tag_rotate := 0 }
  else none

/-- The constructor `Tree::Tree(board_sz)`: a root node, the path array of
`board_size * board_size` entries (not initialised by the source), cursor at the root. -/
def Tree.init (board_sz : Nat) (comments : List (List Nat)) : Option Tree :=
  pos_goto_root
    { board_size := board_sz, heap := [some Node.fresh], comments := comments,
      proot := some 0, ppos := none, cdepth := 0,
      seq := List.replicate (board_sz * board_sz) none, crec := [], tag_rotate := 0 }

/-- The method `Tree::pos_move_down`. The depth counter is an `unsigned short`. -/
def pos_move_down (s : Tree) : Option (Bool × Tree) :=
  match s.ppos with
  | none => some (false, s)
  | some a =>
    match node_at s.heap a with
    | none => none
    | some n =>
      match n.down with
      | none => some (false, s)
      | some c =>
        match node_at s.heap c with
        | none => none
        | some nc =>
          let d := (s.cdepth + 1) % 65536
          if d < s.seq.length then
            some (true, { s with ppos := some c, cdepth := d, seq := s.seq.set d (some c),
                                 crec := s.crec.domove nc.pos })
          else none

/-- The method `Tree::pos_move_up`. -/
def pos_move_up (s : Tree) : Option (Bool × Tree) :=
  if s.cdepth < 1 then some (false, s)
  else
    match s.seq[s.cdepth - 1]? with
    | none => none
    | some p => some (true, { s with ppos := p, cdepth := s.cdepth - 1, crec := s.crec.undo })

/-- The method `Tree::pos_move_right`. -/
def pos_move_right (s : Tree) : Option (Bool × Tree) :=
  match s.ppos with
  | none => some (false, s)
  | some a =>
    match node_at s.heap a with
    | none => none
    | some n =>
      match n.right with
      | none => some (false, s)
      | some r =>
        match node_at s.heap r with
        | none => none
        | some nr => some (true, { s with ppos := some r, crec := s.crec.undo.domove nr.pos })

/-- The loop of `Tree::pos_move_left`:
`while (p != NULL && p->right != this->ppos) p = p->right;`. -/
def left_scan (h : List (Option Node)) (target : Option Nat) : Nat → Option Nat →
    Option (Option Nat)
  | 0, _ => none
  | _ + 1, none => some none
  | fuel + 1, some a =>
    match node_at h a with
    | none => none
    | some n => if n.right ≠ target then left_scan h target fuel n.right else some (some a)

/-- The method `Tree::pos_move_left`. The scan starts at `seq[cdepth - 1]`. -/
def pos_move_left (s : Tree) : Option (Bool × Tree) :=
  if s.cdepth < 1 then some (false, s)
  else
    match s.seq[s.cdepth - 1]? with
    | none => none
    | some p0 =>
      match left_scan s.heap s.ppos (s.heap.length + 1) p0 with
      | none => none
      | some none => some (false, s)
      | some (some p) =>
        match node_at s.heap p with
        | none => none
        | some np => some (true, { s with ppos := some p, crec := s.crec.undo.domove np.pos })

/-- The loop of `Tree::pos_goto_fork`. -/
def goto_fork_loop : Nat → Tree → Option (Bool × Tree)
  | 0, _ => none
  | fuel + 1, s =>
    match deref s.heap s.ppos with
    | none => none
    | some n =>
      match n.down with
      | none => some (false, s)
      | some c =>
        match node_at s.heap c with
        | none => none
        | some nc =>
          if nc.right ≠ none then some (true, s)
          else
            let d := (s.cdepth + 1) % 65536
            if d < s.seq.length then
              goto_fork_loop fuel { s with ppos := some c, cdepth := d,
                                           seq := s.seq.set d (some c),
                                           crec := s.crec.domove nc.pos }
            else none

/-- The method `Tree::pos_goto_fork`. -/
def pos_goto_fork (s : Tree) : Option (Bool × Tree) :=
  match s.ppos with
  | none => some (false, s)
  | some _ => goto_fork_loop (s.heap.length + 1) s

/-! ## Accessors -/

/-- The counting loop of `Tree::current_degree` (the counter is an `unsigned short`). -/
def degree_loop (h : List (Option Node)) : Nat → Option Nat → Nat → Option Nat
  | 0, _, _ => none
  | _ + 1, none, cnt => some cnt
  | fuel + 1, some a, cnt =>
    match node_at h a with
    | none => none
    | some n => degree_loop h fuel n.right ((cnt + 1) % 65536)

/-- The method `Tree::current_degree`. -/
def current_degree (s : Tree) : Option Nat :=
  match s.ppos with
  | none => some 0
  | some a =>
    match node_at s.heap a with
    | none => none
    | some n =>
      match n.down with
      | none => some 0
      | some c => degree_loop s.heap (s.heap.length + 1) (some c) 0

/-- The method `Tree::current_mark`. -/
def current_mark (s : Tree) (mark_start : Bool) : Option Bool :=
  match s.ppos with
  | none => some false
  | some a =>
    match node_at s.heap a with
    | none => none
    | some n => some (if mark_start then n.marked_start else n.marked)

/-- The method `Tree::get_current_comment`: `none` inside stands for `false`. -/
def get_current_comment (s : Tree) : Option (Option (List Nat)) :=
  match s.ppos with
  | none => some none
  | some a =>
    match node_at s.heap a with
    | none => none
    | some n =>
      if !n.has_comment then some none
      else
        match s.comments[n.tag_comment]? with
        | none => none
        | some c => some (some c)

/-- The method `Tree::set_current_comment`. -/
def set_current_comment (comment : List Nat) (s : Tree) : Option Tree :=
  match s.ppos with
  | none => some s
  | some a =>
    match node_at s.heap a with
    | none => none
    | some n =>
      if comment ≠ [] then
        if n.has_comment then
          if n.tag_comment < s.comments.length then
            some { s with comments := s.comments.set n.tag_comment comment }
          else none
        else
          some { s with comments := s.comments ++ [comment],
                        heap := s.heap.set a
                          (some { n with has_comment := true,
                                         tag_comment := s.comments.length }) }
      else
        some { s with heap := s.heap.set a (some { n with has_comment := false }) }

/-! ## Node creation and deletion -/

/-- The loop of `Tree::new_descendent`: `while (p->right != NULL) p = p->right;`. -/
def last_sibling (h : List (Option Node)) : Nat → Nat → Option Nat
  | 0, _ => none
  | fuel + 1, p =>
    match node_at h p with
    | none => none
    | some n =>
      match n.right with
      | none => some p
      | some r => last_sibling h fuel r

/-- The method `Tree::new_descendent()`. -/
def new_descendent (s : Tree) : Option (Option Nat × Tree) :=
  match s.ppos with
  | none => some (none, s)
  | some a =>
    match node_at s.heap a with
    | none => none
    | some n =>
      match n.down with
      | none =>
        let (h1, q) := alloc s.heap
        some (some q, { s with heap := h1.set a (some { n with down := some q }) })
      | some c =>
        match last_sibling s.heap (s.heap.length + 1) c with
        | none => none
        | some p =>
          match node_at s.heap p with
          | none => none
          | some np =>
            let (h1, q) := alloc s.heap
            some (some q, { s with heap := h1.set p (some { np with right := some q }) })

/-- The method `Tree::new_descendent(Move pos)`. -/
def new_descendent_at (pos : Move) (s : Tree) : Option (Option Nat × Tree) :=
  match new_descendent s with
  | none => none
  | some (none, _) => none
  | some (some q, s1) =>
    match node_at s1.heap q with
    | none => none
    | some nq => some (some q, { s1 with heap := s1.heap.set q (some { nq with pos := pos }) })

/-- The postorder deletion loop of `Tree::delete_current_pos`; the result is the
heap when the loop is left by `break`. -/
def delete_loop : Nat → List (Option Node) → Nat → List Nat → Option (List (Option Node))
  | 0, _, _, _ => none
  | fuel + 1, h, a, st =>
    match node_at h a with
    | none => none
    | some n =>
      match n.down with
      | some c => delete_loop fuel h c (a :: st)
      | none =>
        match n.right with
        | some r => delete_loop fuel (h.set a none) r st
        | none =>
          match st with
          | [] => some (h.set a none)
          | top :: rest =>
            match node_at (h.set a none) top with
            | none => none
            | some nt =>
              delete_loop fuel ((h.set a none).set top (some { nt with down := none })) top rest

/-- The method `Tree::delete_current_pos`. -/
def delete_current_pos (s : Tree) : Option Tree :=
  match s.ppos with
  | none => some s
  | some a =>
    match delete_loop (2 * s.heap.length + 1) s.heap a [] with
    | none => none
    | some h =>
      if s.ppos ≠ s.proot then
        let d := (s.cdepth + 65535) % 65536
        match s.seq[d]? with
        | none => none
        | some p => some { s with heap := h, ppos := p, cdepth := d, crec := s.crec.undo }
      else
        let (h1, q) := alloc h
        pos_goto_root { s with heap := h1, proot := some q }

/-! ## Queries -/

/-- The scan of `Tree::query(Move)` over the children of the current node. -/
def query_scan (h : List (Option Node)) (pos : Move) : Nat → Option Nat → Option (Option Nat)
  | 0, _ => none
  | _ + 1, none => some none
  | fuel + 1, some a =>
    match node_at h a with
    | none => none
    | some n => if n.pos = pos then some (some a) else query_scan h pos fuel n.right

/-- The method `Tree::query(Move pos)`. -/
def query_Move (pos : Move) (s : Tree) : Option (Option Nat × Tree) :=
  match s.ppos with
  | none => some (none, s)
  | some a =>
    match node_at s.heap a with
    | none => none
    | some n =>
      match n.down with
      | none => some (none, s)
      | some c =>
        match query_scan s.heap pos (s.heap.length + 1) (some c) with
        | none => none
        | some none => some (none, s)
        | some (some p) =>
          let d := (s.cdepth + 1) % 65536
          if d < s.seq.length then
            some (some p, { s with ppos := some p, cdepth := d, seq := s.seq.set d (some p),
                                   crec := s.crec.domove pos })
          else none

/-- The inner loop of `Tree::query(const Recording*)`:
`do { if (prec[mcnt] == ppos->pos) {found = true; break;} } while (pos_move_right());`. -/
def scan_right (m : Move) : Nat → Tree → Option (Bool × Tree)
  | 0, _ => none
  | fuel + 1, s =>
    match deref s.heap s.ppos with
    | none => none
    | some n =>
      if m = n.pos then some (true, s)
      else
        match pos_move_right s with
        | none => none
        | some (true, s1) => scan_right m fuel s1
        | some (false, s1) => some (false, s1)

/-- The `for (mcnt = 1; mcnt < record->moves_count(); mcnt++)` loop of
`Tree::query(const Recording*)`, over the moves that are left to match. -/
def query_walk : List Move → Nat → Tree → Option (Nat × Tree)
  | [], mcnt, s => some (mcnt, s)
  | m :: rest, mcnt, s =>
    match deref s.heap s.ppos with
    | none => none
    | some n =>
      match n.down with
      | none => some (mcnt, s)
      | some _ =>
        match pos_move_down s with
        | none => none
        | some (_, s1) =>
          match scan_right m (s1.heap.length + 1) s1 with
          | none => none
          | some (true, s2) => query_walk rest (mcnt + 1) s2
          | some (false, s2) =>
            match pos_move_up s2 with
            | none => none
            | some (_, s3) => some (mcnt, s3)

/-- What the `while (r < 8)` loop of the symmetry search ends with: a `return`
inside the loop, or the loop running to its end. -/
inductive SymResult where
  | returned (mcnt : Nat) (s : Tree)
  | searched (rec : List Recording) (mcnt : List Nat) (s : Tree)

/-- The `while (r < 8)` loop of `Tree::query(const Recording*)`; `q` is the
recursive call of `query`. -/
def sym_loop (q : Recording → Tree → Option (Nat × Tree)) (record : Recording) :
    Nat → Nat → List Recording → List Nat → Tree → Option SymResult
  | 0, _, _, _, _ => none
  | fuel + 1, r, rec, mcnt, s =>
    if r < 8 then
      let rec1 := rec.set r (Recording.board_rotate s.board_size r false record)
      match pos_goto_root s with
      | none => none
      | some s1 =>
        match q (rec1.getD r []) s1 with
        | none => none
        | some (m, s2) =>
          if m = (rec1.getD 0 []).length then some (SymResult.returned m s2)
          else if s2.tag_rotate ≠ 0 then some (SymResult.returned m s2)
          else sym_loop q record fuel (r + 1) rec1 (mcnt.set r m) s2
    else some (SymResult.searched rec mcnt s)

/-- The selection `for (r = 0; r < 8; r++) if (mcnt[r] > mcnt[idx]) idx = r;`. -/
def best_index (mcnt : List Nat) : Nat :=
  (List.range 8).foldl (fun idx r => if mcnt.getD r 0 > mcnt.getD idx 0 then r else idx) 0

/-- The method `Tree::query(const Recording* record)`. The first argument bounds the
depth of the recursion (the recursive calls are made with the cursor at the root,
where the method does not recurse). The match counts of transforms below a non-zero
starting `tag_rotate` are never written by the source; reading them is undefined. -/
def query : Nat → Recording → Tree → Option (Nat × Tree)
  | 0, _, _ => none
  | k + 1, record, s =>
    if record.length < 1 then some (0, s)
    else
      match deref s.heap s.proot with
      | none => none
      | some rt =>
        if rt.down = none then some (0, s)
        else
          match (if s.ppos = none then pos_goto_root s else some s) with
          | none => none
          | some s0 =>
            match query_Move (record.headD Move.null_position) s0 with
            | none => none
            | some (some _, s1) => query_walk (record.drop 1) 1 s1
            | some (none, s1) =>
              if s1.ppos = s1.proot then some (0, s1)
              else
                let r0 := s1.tag_rotate
                match sym_loop (query k) record 9 r0 (List.replicate 8 [])
                        (List.replicate 8 0) s1 with
                | none => none
                | some (SymResult.returned m s2) => some (m, s2)
                | some (SymResult.searched rec mcnt s2) =>
                  if r0 ≠ 0 then none
                  else
                    let idx := best_index mcnt
                    match pos_goto_root { s2 with tag_rotate := idx } with
                    | none => none
                    | some s3 => query k (rec.getD idx []) s3

/-- The method `Tree::query_rotate_tag`. -/
def query_rotate_tag (s : Tree) : Nat := s.tag_rotate

/-- The method `Tree::clear_rotate_tag`. -/
def clear_rotate_tag (s : Tree) : Tree := { s with tag_rotate := 0 }

/-- The insertion loop of `Tree::write_recording`, over the moves still to add. -/
def write_loop : List Move → Tree → Option Tree
  | [], s => some s
  | m :: rest, s =>
    match new_descendent_at m s with
    | none => none
    | some (p, s1) =>
      let d := (s1.cdepth + 1) % 65536
      if d < s1.seq.length then
        write_loop rest { s1 with ppos := p, cdepth := d, seq := s1.seq.set d p,
                                  crec := s1.crec.domove m }
      else none

/-- The method `Tree::write_recording`. -/
def write_recording (record : Recording) (s : Tree) : Option Tree :=
  match pos_goto_root s with
  | none => none
  | some s1 =>
    match query 2 record { s1 with tag_rotate := 0 } with
    | none => none
    | some (excnt, s2) =>
      if excnt = record.length then some s2
      else
        write_loop ((Recording.board_rotate s2.board_size s2.tag_rotate false record).drop excnt)
          s2

/-! ## Renlib codec -/

/-- The constant `Renlib_Header_Size`. -/
def Renlib_Header_Size : Nat := 20

/-- The constant `Renlib_Header`: `0xFF 'R' 'e' 'n' 'L' 'i' 'b' 0xFF`, the two
version bytes and ten bytes `0xFF`. -/
def Renlib_Header : List Nat :=
  [255, 82, 101, 110, 76, 105, 98, 255, 3, 4, 255, 255, 255, 255, 255, 255, 255, 255, 255, 255]

/-- The structure `Renlib_Node`, one 2-byte record of a Renlib file. -/
structure Renlib_Node where
  x : Nat
  y : Nat
  extension : Bool
  no_move : Bool
  start : Bool
  comment : Bool
  mark : Bool
  old_comment : Bool
  is_leaf : Bool
  has_sibling : Bool
deriving DecidableEq

/-- Bit `k` of a byte. -/
def bit_of (b : Nat) (k : Nat) : Bool := b / 2 ^ k % 2 == 1

/-- The record at offset `i` of the file (`x` in bits 0 to 3 and `y` in bits 4 to 7 of
the first byte, the flags in the second byte); `none` when the record is not inside
the buffer. -/
def Renlib_Node.read (data : List Nat) (i : Nat) : Option Renlib_Node :=
  match data[i]?, data[i + 1]? with
  | some b0, some b1 =>
    some { x := b0 % 16, y := b0 / 16 % 16,
           extension := bit_of b1 0, no_move := bit_of b1 1, start := bit_of b1 2,
           comment := bit_of b1 3, mark := bit_of b1 4, old_comment := bit_of b1 5,
           is_leaf := bit_of b1 6, has_sibling := bit_of b1 7 }
  | _, _ => none

/-- The two bytes of a record. -/
def Renlib_Node.bytes (r : Renlib_Node) : List Nat :=
  [r.x % 16 + 16 * (r.y % 16),
   r.extension.toNat + 2 * r.no_move.toNat + 4 * r.start.toNat + 8 * r.comment.toNat
     + 16 * r.mark.toNat + 32 * r.old_comment.toNat + 64 * r.is_leaf.toNat
     + 128 * r.has_sibling.toNat]

/-- Modelled from the spec: the value a coordinate member of `Move` holds after an
integer is assigned to it (the member type is declared in the missing header; the
value is reduced to the width that holds coordinates 0 to 31). -/
def Move.coord (v : Int) : Nat := (v % 32).toNat

/-- The method `Tree::is_renlib_file`, on the content of the file. -/
def is_renlib_file (data : List Nat) : Bool :=
  if data.length < Renlib_Header_Size + 2 then false
  else data.take 8 == Renlib_Header.take 8

/-- The C string at offset `i`: its bytes and the offset of its terminator; `none`
when no terminator lies inside the buffer. -/
def read_cstring (data : List Nat) : Nat → Nat → Option (List Nat × Nat)
  | 0, _ => none
  | fuel + 1, i =>
    match data[i]? with
    | none => none
    | some b =>
      if b = 0 then some ([], i)
      else
        match read_cstring data fuel (i + 1) with
        | none => none
        | some (str, j) => some (b :: str, j)

/-- The loop `while (*pstr == 0) pstr++;`: the offset of the first non-zero byte
from `i` on; `none` when the loop leaves the buffer. -/
def skip_nul (data : List Nat) : Nat → Nat → Option Nat
  | 0, _ => none
  | fuel + 1, i =>
    match data[i]? with
    | none => none
    | some b => if b = 0 then skip_nul data fuel (i + 1) else some i

/-- The linking step of the decoding loop (`if (pread->is_leaf) ... else ...`): the
inner `none` is the `break`. -/
def link_next (h : List (Option Node)) (ppos q : Nat) (is_leaf : Bool) (st : List Nat) :
    Option (Option (List (Option Node) × List Nat)) :=
  if is_leaf then
    match st with
    | [] => some none
    | top :: rest =>
      match node_at h top with
      | none => none
      | some nt => some (some (h.set top (some { nt with right := some q }), rest))
  else
    match node_at h ppos with
    | none => none
    | some n => some (some (h.set ppos (some { n with down := some q }), st))

/-- The result of the decoding loop: heap, comment table, `ppos` and `pnextpos`. -/
structure LoadResult where
  heap : List (Option Node)
  comments : List (List Nat)
  ppos : Nat
  pnextpos : Option Nat
deriving DecidableEq

/-- The loop `while ((char*) pread < file_data + lib_file_size)` of
`Tree::load_renlib`; `i` is the offset of `pread` in the file. -/
def load_loop (data : List Nat) : Nat → List (Option Node) → List (List Nat) → Nat →
    List Nat → Nat → Option Nat → Option LoadResult
  | 0, _, _, _, _, _, _ => none
  | fuel + 1, h, comments, ppos, st, i, pnextpos =>
    if i < data.length then
      let (h1, q) := alloc h
      match Renlib_Node.read data i with
      | none => none
      | some rn =>
        match node_at h1 ppos with
        | none => none
        | some n =>
          let n1 : Node :=
            if rn.x ≠ 0 ∨ rn.y ≠ 0 then
              { n with pos := ⟨Move.coord ((rn.x : Int) - 1), Move.coord (15 - (rn.y : Int) - 1)⟩ }
            else n
          let h2 := h1.set ppos (some { n1 with marked := rn.mark, marked_start := rn.start })
          let st1 := if rn.has_sibling then ppos :: st else st
          match link_next h2 ppos q rn.is_leaf st1 with
          | none => none
          | some none => some ⟨h2, comments, ppos, some q⟩
          | some (some (h3, st2)) =>
            if rn.comment || rn.old_comment then
              match node_at h3 ppos, read_cstring data (data.length + 1) (i + 2) with
              | some nn, some (str, j) =>
                match skip_nul data (data.length + 1) j with
                | none => none
                | some j1 =>
                  load_loop data fuel
                    (h3.set ppos (some { nn with has_comment := true,
                                                 tag_comment := comments.length }))
                    (comments ++ [str]) q st2 j1 (some q)
              | _, _ => none
            else load_loop data fuel h3 comments q st2 (i + 2) (some q)
    else some ⟨h, comments, ppos, pnextpos⟩

/-- How a codec method ends: by `return`, or by throwing
`Invalid_Board_Size_Exception`. -/
inductive Outcome (α : Type) where
  | returned (v : α) (s : Tree)
  | thrown (s : Tree)
deriving DecidableEq

/-- The method `Tree::load_renlib`, on the content of the file. `pnextpos` is not
initialised by the source: when the loop body never runs, the comparison after the
loop reads an indeterminate pointer. -/
def load_renlib (data : List Nat) (s : Tree) : Option (Outcome Bool) :=
  if s.board_size ≠ 15 then some (Outcome.thrown s)
  else if !is_renlib_file data then some (Outcome.returned false s)
  else
    match pos_goto_root s with
    | none => none
    | some s1 =>
      match delete_current_pos s1 with
      | none => none
      | some s2 =>
        let (h3, rt) := alloc s2.heap
        match new_descendent { s2 with heap := h3, proot := some rt, ppos := some rt } with
        | none => none
        | some (_, s4) =>
          match pos_move_down s4 with
          | none => none
          | some (_, s5) =>
            match s5.ppos, data[20]? with
            | some w, some b0 =>
              let i0 := if b0 % 16 = 0 ∨ b0 / 16 % 16 = 0 then 22 else 20
              match load_loop data (data.length + 1) s5.heap s5.comments w [] i0 none with
              | none => none
              | some res =>
                match res.pnextpos with
                | none => none
                | some q =>
                  if res.ppos ≠ q then
                    match pos_goto_root { s5 with heap := res.heap.set q none,
                                                  comments := res.comments,
                                                  ppos := some res.ppos } with
                    | none => none
                    | some s6 => some (Outcome.returned true s6)
                  else
                    match pos_goto_root { s5 with heap := res.heap, comments := res.comments,
                                                  ppos := some res.ppos } with
                    | none => none
                    | some s6 => some (Outcome.returned false s6)
            | _, _ => none

/-- The record `save_renlib` writes for a node: the converted coordinates and the
flags, or two zero bytes for a null position. -/
def save_record (n : Node) : List Nat :=
  if !n.pos.position_null then
    Renlib_Node.bytes
      { x := (n.pos.x + 1) % 16, y := ((15 - ((n.pos.y : Int) + 1)) % 16).toNat,
        extension := false, no_move := false, start := n.marked_start,
        comment := n.has_comment, mark := n.marked, old_comment := false,
        is_leaf := n.down == none, has_sibling := n.right != none }
  else [0, 0]

/-- The loop `while (! tag_end)` of `Tree::save_renlib`; the result is the bytes
written after the header. -/
def save_loop (h : List (Option Node)) (comments : List (List Nat)) :
    Nat → Option Nat → List Nat → List Nat → Option (List Nat)
  | 0, _, _, _ => none
  | fuel + 1, ppos, st, out =>
    match deref h ppos with
    | none => none
    | some n =>
      match (if n.has_comment then
               (comments[n.tag_comment]?).map (fun cmt => out ++ save_record n ++ cmt ++ [0])
             else some (out ++ save_record n)) with
      | none => none
      | some out1 =>
        let st1 := if n.right ≠ none then ppos.toList ++ st else st
        match n.down with
        | none =>
          match st1 with
          | [] => some out1
          | top :: rest =>
            match node_at h top with
            | none => none
            | some nt => save_loop h comments fuel nt.right rest out1
        | some c => save_loop h comments fuel (some c) st1 out1

/-- The traversal start of `Tree::save_renlib`: the only child of the root when it
is at `Move(7, 7)` without sibling, the root otherwise. -/
def save_start (h : List (Option Node)) (proot : Option Nat) : Option (Option Nat) :=
  match deref h proot with
  | none => none
  | some rt =>
    match rt.down with
    | none => some proot
    | some c =>
      match node_at h c with
      | none => none
      | some nc =>
        if nc.pos = ⟨7, 7⟩ ∧ nc.right = none then some (some c) else some proot

/-- The method `Tree::save_renlib`: the value returned with the bytes written to the
file. The file is taken to be writable; the backup of an existing file is not
modelled. -/
def save_renlib (s : Tree) : Option (Outcome (Bool × List Nat)) :=
  if s.board_size ≠ 15 then some (Outcome.thrown s)
  else
    match save_start s.heap s.proot with
    | none => none
    | some start =>
      match save_loop s.heap s.comments (s.heap.length + 1) start [] Renlib_Header with
      | none => none
      | some out =>
        match pos_goto_root s with
        | none => none
        | some s1 =>
          match query 2 s.crec s1 with
          | none => none
          | some (_, s2) => some (Outcome.returned (true, out) s2)

/-! ## Tree shapes

The shape of the structure reachable from a pointer, as a binary tree of addresses:
`down` is the first child, `right` the next sibling. It is the specification-side
view of the heap: a store is a pure tree when some shape describes it whose
addresses are pairwise distinct. -/

/-- A left-child/right-sibling shape. -/
inductive LT where
  | nil : LT
  | node (a : Nat) (d r : LT) : LT
deriving DecidableEq

/-- The pointer to a shape: `NULL` for the empty one. -/
def LT.root : LT → Option Nat
  | LT.nil => none
  | LT.node a _ _ => some a

/-- The addresses of a shape, in postorder (children, node, following siblings). -/
def LT.addrs : LT → List Nat
  | LT.nil => []
  | LT.node a d r => d.addrs ++ a :: r.addrs

/-- The addresses along the sibling chain that starts the shape. -/
def LT.spine : LT → List Nat
  | LT.nil => []
  | LT.node a _ r => a :: r.spine

/-- The shape below the first node: its children. -/
def LT.kids : LT → LT
  | LT.nil => LT.nil
  | LT.node _ d _ => d

/-- The number of levels of a shape (siblings are on one level). -/
def LT.height : LT → Nat
  | LT.nil => 0
  | LT.node _ d r => max (d.height + 1) r.height

/-- The number of iterations the deletion loop spends on a shape: one to descend
into a node that has children and one to destroy each node. -/
def LT.cost : LT → Nat
  | LT.nil => 0
  | LT.node _ d r => (if d = LT.nil then 0 else 1 + d.cost) + 1 + r.cost

/-- The heap holds the shape: every node of the shape is live and its two links
point to the roots of the two sub-shapes. -/
def LT.models (h : List (Option Node)) : LT → Bool
  | LT.nil => true
  | LT.node a d r =>
    match node_at h a with
    | none => false
    | some n => n.down == d.root && n.right == r.root && d.models h && r.models h

/-- A shape that is a single tree: a root without sibling. -/
def LT.rooted : LT → Bool
  | LT.node _ _ LT.nil => true
  | _ => false

/-- The store of `s` is the pure tree of shape `t`: `t` hangs from `proot`, the heap
holds it, no node occurs twice and the root has no sibling. -/
def TreeShape (s : Tree) (t : LT) : Prop :=
  s.proot = t.root ∧ t.models s.heap = true ∧ t.addrs.Nodup ∧ t.rooted = true

instance (s : Tree) (t : LT) : Decidable (TreeShape s t) := by
  unfold TreeShape; infer_instance

/-- The heap after the cells of the listed addresses are destroyed. -/
def free_all (h : List (Option Node)) (l : List Nat) : List (Option Node) :=
  l.foldl (fun h1 a => h1.set a none) h

/-- The sub-shape `u` hangs in `t` at depth `k`: it is reached from the first node of
`t` by `k` steps to a first child and any number of steps to a next sibling. -/
inductive Sub : LT → Nat → LT → Prop where
  | here (a : Nat) (d r : LT) : Sub (LT.node a d r) 0 (LT.node a d r)
  | right {a : Nat} {d r : LT} {k : Nat} {u : LT} : Sub r k u → Sub (LT.node a d r) k u
  | down {a : Nat} {d r : LT} {k : Nat} {u : LT} : Sub d k u → Sub (LT.node a d r) (k + 1) u

/-- The invariant of navigation over a store of shape `t` that fits the path array:
the cursor is at a node of depth `cdepth`, every entry of the path array up to `cdepth`
is a node of its depth, and the recording has `cdepth` moves. -/
structure CursorInv (t : LT) (s : Tree) : Prop where
  shape : TreeShape s t
  cap_seq : t.height ≤ s.seq.length
  cap_depth : t.height ≤ 65536
  pos : ∃ u, Sub t s.cdepth u ∧ s.ppos = u.root
  path : ∀ i, i ≤ s.cdepth → ∃ u, Sub t i u ∧ s.seq[i]? = some u.root
  len : s.crec.length = s.cdepth

/-- The heap `h1` continues the heap `h` above the address `rt`: the cells up to `rt`
are the same, no live cell of `h` is destroyed and no cell is removed. -/
def Grows (rt : Nat) (h h1 : List (Option Node)) : Prop :=
  (∀ a, a ≤ rt → node_at h1 a = node_at h a) ∧
  (∀ a, (node_at h a).isSome = true → (node_at h1 a).isSome = true) ∧
  h.length ≤ h1.length

/-- The four navigation calls. -/
inductive Nav where
  | down
  | up
  | right
  | left
deriving DecidableEq

/-- One navigation call: the value returned and the new state. -/
def Nav.call : Nav → Tree → Option (Bool × Tree)
  | Nav.down => pos_move_down
  | Nav.up => pos_move_up
  | Nav.right => pos_move_right
  | Nav.left => pos_move_left

/-- A sequence of navigation calls, the returned values being dropped. -/
def navigate : List Nav → Tree → Option Tree
  | [], s => some s
  | op :: ops, s =>
    match op.call s with
    | none => none
    | some (_, s1) => navigate ops s1

/-! ## Scenarios built through the cursor interface -/

/-- Sequencing of an operation that returns a value with the new state, the value
being dropped. -/
def and_then {α : Type} (f : Tree → Option (α × Tree)) (s : Option Tree) : Option Tree :=
  match s with
  | none => none
  | some t =>
    match f t with
    | none => none
    | some (_, t1) => some t1

/-- The value an operation returns on a state. -/
def value_of {α : Type} (f : Tree → Option (α × Tree)) (s : Option Tree) : Option α :=
  match s with
  | none => none
  | some t =>
    match f t with
    | none => none
    | some (v, _) => some v

/-- A 15x15 tree whose root has the single child `(7,7)`, carrying the comment "a":
`new_child(Move(7,7))`, `move_down()`, `set_comment("a")`. -/
def commented_leaf : Option Tree :=
  (and_then pos_move_down (and_then (new_descendent_at ⟨7, 7⟩) (Tree.init 15 []))).bind
    (set_current_comment [97])

/-- The bytes `save_renlib` writes for `commented_leaf`. -/
def commented_leaf_file : Option (List Nat) :=
  match commented_leaf.bind save_renlib with
  | some (Outcome.returned (_, out) _) => some out
  | _ => none

/-- The outcome of `load_renlib` on those bytes, in a new 15x15 tree. -/
def commented_leaf_decoded : Option (Outcome Bool) :=
  match commented_leaf_file with
  | none => none
  | some data => (Tree.init 15 []).bind (load_renlib data)

/-- The state an outcome carries. -/
def Outcome.state {α : Type} : Outcome α → Tree
  | Outcome.returned _ s => s
  | Outcome.thrown s => s

/-- The tree after `write_recording` of `[(7,7),(7,8)]`, of `[(7,7),(8,8),(9,9)]` and
of `[(7,7),(8,8),(6,6)]`, in this order, on an empty 15x15 tree. -/
def three_lines : Option Tree :=
  (((Tree.init 15 []).bind (write_recording [⟨7, 7⟩, ⟨7, 8⟩])).bind
    (write_recording [⟨7, 7⟩, ⟨8, 8⟩, ⟨9, 9⟩])).bind
    (write_recording [⟨7, 7⟩, ⟨8, 8⟩, ⟨6, 6⟩])

/-- A 15x15 tree whose root has the children `(3,3)` (address 1) and `(4,4)` (address
2), with `(3,4)` (address 3) below the first and `(4,5)` (address 4) below the
second; the cursor is at the root. -/
def two_branches : Option Tree :=
  (and_then (new_descendent_at ⟨4, 5⟩)
    (and_then pos_move_right
      (and_then (new_descendent_at ⟨3, 4⟩)
        (and_then pos_move_down
          (and_then (new_descendent_at ⟨4, 4⟩)
            (and_then (new_descendent_at ⟨3, 3⟩) (Tree.init 15 []))))))).bind
    pos_goto_root

/-- A 15x15 tree whose root has the two leaf children `(3,3)` (address 1) and `(4,4)`
(address 2); the cursor is at the root. -/
def two_leaves : Option Tree :=
  and_then (new_descendent_at ⟨4, 4⟩) (and_then (new_descendent_at ⟨3, 3⟩) (Tree.init 15 []))

/-- A 15x15 tree holding the single line `[(1,2)]`, the cursor at the root. -/
def one_line : Option Tree :=
  ((Tree.init 15 []).bind (write_recording [⟨1, 2⟩])).bind pos_goto_root

/-- A file with the Renlib header and one record `(8,7)` that announces a child
(`is_leaf` clear) which the file does not contain. -/
def truncated_file : List Nat := Renlib_Header ++ [120, 0]

/-- The state `two_branches` evaluates to. -/
def two_branches_state : Tree :=
  { board_size := 15,
    heap := [some ⟨⟨31, 31⟩, false, false, false, 0, some 1, none⟩,
             some ⟨⟨3, 3⟩, false, false, false, 0, some 3, some 2⟩,
             some ⟨⟨4, 4⟩, false, false, false, 0, some 4, none⟩,
             some ⟨⟨3, 4⟩, false, false, false, 0, none, none⟩,
             some ⟨⟨4, 5⟩, false, false, false, 0, none, none⟩],
    comments := [], proot := some 0, ppos := some 0, cdepth := 0,
    seq := some 0 :: some 1 :: List.replicate 223 none, crec := [], tag_rotate := 0 }

/-- The shape of `two_branches_state`. -/
def two_branches_shape : LT :=
  LT.node 0 (LT.node 1 (LT.node 3 LT.nil LT.nil) (LT.node 2 (LT.node 4 LT.nil LT.nil) LT.nil))
    LT.nil

/-- The state `one_line` evaluates to. -/
def one_line_state : Tree :=
  { board_size := 15,
    heap := [some ⟨⟨31, 31⟩, false, false, false, 0, some 1, none⟩,
             some ⟨⟨1, 2⟩, false, false, false, 0, none, none⟩],
    comments := [], proot := some 0, ppos := some 0, cdepth := 0,
    seq := some 0 :: some 1 :: List.replicate 223 none, crec := [], tag_rotate := 0 }

/-- The shape of `one_line_state`. -/
def one_line_shape : LT := LT.node 0 (LT.node 1 LT.nil LT.nil) LT.nil

/-- The empty 15x15 tree `Tree(15)`. -/
def empty_tree_state : Tree :=
  { board_size := 15, heap := [some Node.fresh], comments := [], proot := some 0,
    ppos := some 0, cdepth := 0, seq := some 0 :: List.replicate 224 none, crec := [],
    tag_rotate := 0 }

/-- The state `load_renlib` leaves when it decodes `truncated_file` into the empty
tree: cell 0 is the old root (destroyed), cell 1 the root made by the deletion, cell 2
the new root, cell 3 the node of the record and cell 4 the node allocated for the
child that the file does not hold. -/
def truncated_decoded_state : Tree :=
  { board_size := 15,
    heap := [none,
             some Node.fresh,
             some ⟨⟨31, 31⟩, false, false, false, 0, some 3, none⟩,
             some ⟨⟨7, 7⟩, false, false, false, 0, some 4, none⟩,
             some Node.fresh],
    comments := [], proot := some 2, ppos := some 2, cdepth := 0,
    seq := some 2 :: some 3 :: List.replicate 223 none, crec := [], tag_rotate := 0 }

/-- The value a codec method returned, if it returned. -/
def Outcome.value {α : Type} : Outcome α → Option α
  | Outcome.returned v _ => some v
  | Outcome.thrown _ => none

/-- The cursor can be dereferenced by the comment accessors: it is `NULL`, or it is a
live node whose comment reference, when it has one, is an index of the comment
table. -/
def comment_ref_ok (s : Tree) : Bool :=
  match s.ppos with
  | none => true
  | some a =>
    match node_at s.heap a with
    | none => false
    | some n => !n.has_comment || decide (n.tag_comment < s.comments.length)

/-- The sibling chain that starts at the pointer `p` is the list `l` of addresses:
`p` points to the first one, the `right` link of each points to the next one and the
`right` link of the last one is `NULL`. -/
def is_chain (h : List (Option Node)) : Option Nat → List Nat → Bool
  | p, [] => p == none
  | p, c :: l =>
    p == some c &&
      match node_at h c with
      | none => false
      | some n => is_chain h n.right l

/-- The children of the node at `a`, in sibling order, are the nodes `l`. -/
def children_are (h : List (Option Node)) (a : Nat) (l : List Nat) : Bool :=
  match node_at h a with
  | none => false
  | some n => is_chain h n.down l

/-- The first address of `l` whose node holds the move `m`. -/
def first_with_move (h : List (Option Node)) (m : Move) (l : List Nat) : Option Nat :=
  l.find? (fun c => decide (Option.map Node.pos (node_at h c) = some m))

/-- The state `commented_leaf` evaluates to: the root (address 0) and its child `(7,7)`
(address 1) with the comment "a", the cursor on the child. -/
def commented_leaf_state : Tree :=
  { board_size := 15,
    heap := [some ⟨⟨31, 31⟩, false, false, false, 0, some 1, none⟩,
             some ⟨⟨7, 7⟩, false, false, true, 0, none, none⟩],
    comments := [[97]], proot := some 0, ppos := some 1, cdepth := 1,
    seq := some 0 :: some 1 :: List.replicate 223 none, crec := [⟨7, 7⟩], tag_rotate := 0 }

/-- The tree after `write_recording` of `[(7,7),(7,8)]` and of `[(7,7),(8,8),(9,9)]` on an
empty 15x15 tree: the root (address 0), `(7,7)` (address 1) with the children `(7,8)`
(address 2) and `(8,8)` (address 3), and `(9,9)` (address 4) below `(8,8)`. -/
def two_lines : Option Tree :=
  ((Tree.init 15 []).bind (write_recording [⟨7, 7⟩, ⟨7, 8⟩])).bind
    (write_recording [⟨7, 7⟩, ⟨8, 8⟩, ⟨9, 9⟩])

/-- The position and the two links of every cell of a heap. -/
def heap_links (h : List (Option Node)) : List (Option (Move × Option Nat × Option Nat)) :=
  h.map (Option.map (fun n => (n.pos, n.down, n.right)))

/-- A file with the Renlib header and the single record `(8,7)` with the `comment` and
`is_leaf` bits, followed by the string "a". -/
def commented_last_file : List Nat := Renlib_Header ++ [120, 72, 97, 0]

/-- A file with the Renlib header, the record `(8,7)` with the `comment` bit and the string
"a", and the leaf record `(9,8)`. -/
def commented_first_file : List Nat := Renlib_Header ++ [120, 8, 97, 0, 137, 64]

/-- A file with the Renlib header, the record `x = 5, y = 0` (not a leaf) and the leaf
record `x = 6, y = 6`. -/
def zero_row_file : List Nat := Renlib_Header ++ [5, 0, 102, 64]

/-- A file with the Renlib header and the single record `x = 8, y = 8` with `is_leaf`
set, `has_sibling` and `comment` clear. -/
def center_file : List Nat := Renlib_Header ++ [136, 64]

/-- The addresses of a shape in preorder: node, children, following siblings. -/
def LT.preorder : LT → List Nat
  | LT.nil => []
  | LT.node a d r => a :: (d.preorder ++ r.preorder)

/-- Modelled from the spec: the record the format prescribes for a node, byte by byte.
A null position gives two zero bytes. Else the first byte holds file `x = x + 1` in
bits 0 to 3 and file `y = 15 - (y + 1)` in bits 4 to 7; the second byte holds `start`
(bit 2, value 4), `comment` (bit 3, value 8) and `mark` (bit 4, value 16), equal to the
flags of the node, `is_leaf` (bit 6, value 64), set iff the node has no child, and
`has_sibling` (bit 7, value 128), set iff it has a next sibling; the reserved bits 0
and 1 and the legacy comment bit 5 are clear. -/
def spec_record (n : Node) : List Nat :=
  if n.pos.position_null then [0, 0]
  else
    [(n.pos.x + 1) + 16 * (15 - (n.pos.y + 1)),
     4 * n.marked_start.toNat + 8 * n.has_comment.toNat + 16 * n.marked.toNat
       + 64 * (decide (n.down = none)).toNat + 128 * (decide (n.right ≠ none)).toNat]

/-- The bytes the format prescribes for a node: its record, followed by its comment and
a `NUL` byte iff it has a comment. -/
def spec_node_bytes (comments : List (List Nat)) (n : Node) : List Nat :=
  spec_record n ++ (if n.has_comment then comments.getD n.tag_comment [] ++ [0] else [])

/-- The bytes the format prescribes for a list of nodes, one after the other. -/
def spec_encode (h : List (Option Node)) (comments : List (List Nat)) : List Nat → List Nat
  | [] => []
  | a :: l =>
    (match node_at h a with
     | some n => spec_node_bytes comments n
     | none => []) ++ spec_encode h comments l

/-- Every listed node is live, is on the 15x15 board or has the null position, and its
comment reference, when it has one, is an index of the comment table. -/
def nodes_ok (h : List (Option Node)) (comments : List (List Nat)) (l : List Nat) : Bool :=
  l.all (fun a =>
    match node_at h a with
    | none => false
    | some n =>
      (n.pos.position_null || (decide (n.pos.x < 15) && decide (n.pos.y < 15))) &&
      (!n.has_comment || decide (n.tag_comment < comments.length)))

/-- The standard format applies: the root has exactly one child, and it is at `(7,7)`. -/
def is_standard (h : List (Option Node)) : LT → Bool
  | LT.node _ (LT.node c _ LT.nil) _ =>
    decide (Option.map Node.pos (node_at h c) = some ⟨7, 7⟩)
  | _ => false

/-- The shape the encoding walks, in the words of the specification: the only child of
the root in the standard format, the whole tree otherwise. -/
def save_shape (h : List (Option Node)) (t : LT) : LT :=
  if is_standard h t then t.kids else t

/-- A 15x15 tree whose only content is the child `(7,7)` (address 1) of the root. -/
def center_leaf_state : Tree :=
  { board_size := 15,
    heap := [some ⟨⟨31, 31⟩, false, false, false, 0, some 1, none⟩,
             some ⟨⟨7, 7⟩, false, false, false, 0, none, none⟩],
    comments := [], proot := some 0, ppos := some 0, cdepth := 0,
    seq := some 0 :: some 1 :: List.replicate 223 none, crec := [], tag_rotate := 0 }

theorem node_at_lt {h : List (Option Node)} {a : Nat} {n : Node} (hn : node_at h a = some n) :
    a < h.length := by
  unfold node_at at hn
  by_contra hlt
  rw [List.getElem?_eq_none (by omega)] at hn
  simp at hn

theorem node_at_set_eq {h : List (Option Node)} {a : Nat} (v : Option Node) (ha : a < h.length) :
    node_at (h.set a v) a = v := by
  simp [node_at, List.getElem?_set, ha]

theorem node_at_set_ne {h : List (Option Node)} {a b : Nat} (v : Option Node) (hab : a ≠ b) :
    node_at (h.set a v) b = node_at h b := by
  simp [node_at, List.getElem?_set, hab]

theorem node_at_append_left {h : List (Option Node)} {a : Nat} (l : List (Option Node))
    (ha : a < h.length) : node_at (h ++ l) a = node_at h a := by
  simp [node_at, List.getElem?_append_left ha]

theorem node_at_append_new (h : List (Option Node)) (v : Option Node) :
    node_at (h ++ [v]) h.length = v := by
  simp [node_at]

theorem nodup_bounded_length {l : List Nat} {n : Nat} (hd : l.Nodup) (hb : ∀ a ∈ l, a < n) :
    l.length ≤ n := by
  have hsub : l ⊆ List.range n := fun a ha => List.mem_range.mpr (hb a ha)
  have := (List.subperm_of_subset hd hsub).length_le
  simpa using this

theorem models_node {h : List (Option Node)} {a : Nat} {d r : LT} :
    (LT.node a d r).models h = true ↔
      ∃ n, node_at h a = some n ∧ n.down = d.root ∧ n.right = r.root ∧
        d.models h = true ∧ r.models h = true := by
  rw [LT.models]
  cases hn : node_at h a with
  | none => simp
  | some n => simp [and_assoc]

theorem models_frame {h h1 : List (Option Node)} (t : LT) :
    (∀ a ∈ t.addrs, node_at h1 a = node_at h a) → t.models h = true → t.models h1 = true := by
  induction t with
  | nil => intro _ _; rfl
  | node a d r ihd ihr =>
    intro hf hm
    obtain ⟨n, hn, hd, hr, hmd, hmr⟩ := models_node.mp hm
    refine models_node.mpr ⟨n, ?_, hd, hr, ihd ?_ hmd, ihr ?_ hmr⟩
    · rw [hf a (by simp [LT.addrs]), hn]
    · intro x hx; exact hf x (by simp [LT.addrs, hx])
    · intro x hx; exact hf x (by simp [LT.addrs, hx])

theorem models_addrs_live {h : List (Option Node)} (t : LT) :
    t.models h = true → ∀ a ∈ t.addrs, ∃ n, node_at h a = some n := by
  induction t with
  | nil => intro _ a ha; simp [LT.addrs] at ha
  | node b d r ihd ihr =>
    intro hm a ha
    obtain ⟨n, hn, -, -, hmd, hmr⟩ := models_node.mp hm
    simp only [LT.addrs, List.mem_append, List.mem_cons] at ha
    rcases ha with ha | rfl | ha
    · exact ihd hmd a ha
    · exact ⟨n, hn⟩
    · exact ihr hmr a ha

theorem length_free_all (l : List Nat) : ∀ h : List (Option Node),
    (free_all h l).length = h.length := by
  induction l with
  | nil => intro h; rfl
  | cons a l ih => intro h; simp [free_all, List.foldl] at *; rw [ih]; simp

theorem free_all_append (h : List (Option Node)) (l1 l2 : List Nat) :
    free_all h (l1 ++ l2) = free_all (free_all h l1) l2 := by
  simp [free_all, List.foldl_append]

theorem free_all_cons (h : List (Option Node)) (a : Nat) (l : List Nat) :
    free_all h (a :: l) = free_all (h.set a none) l := rfl

theorem node_at_free_all_of_not_mem (l : List Nat) : ∀ (h : List (Option Node)) (a : Nat),
    a ∉ l → node_at (free_all h l) a = node_at h a := by
  induction l with
  | nil => intro h a _; rfl
  | cons b l ih =>
    intro h a ha
    simp only [List.mem_cons, not_or] at ha
    rw [free_all_cons, ih _ _ ha.2, node_at_set_ne _ (Ne.symm ha.1)]

theorem node_at_free_all_of_mem (l : List Nat) : ∀ (h : List (Option Node)) (a : Nat),
    a ∈ l → node_at (free_all h l) a = none := by
  induction l with
  | nil => intro h a ha; simp at ha
  | cons b l ih =>
    intro h a ha
    rw [free_all_cons]
    by_cases hal : a ∈ l
    · exact ih _ _ hal
    · have hab : a = b := by simpa [hal] using ha
      subst hab
      rw [node_at_free_all_of_not_mem l _ _ hal]
      by_cases hlt : a < h.length
      · exact node_at_set_eq none hlt
      · have hlen : (h.set a none).length ≤ a := by simp; omega
        simp [node_at, List.getElem?_eq_none hlen]


theorem delete_loop_succ (fuel : Nat) (h : List (Option Node)) (a : Nat) (st : List Nat) :
    delete_loop (fuel + 1) h a st =
      match node_at h a with
      | none => none
      | some n =>
        match n.down with
        | some c => delete_loop fuel h c (a :: st)
        | none =>
          match n.right with
          | some r => delete_loop fuel (h.set a none) r st
          | none =>
            match st with
            | [] => some (h.set a none)
            | top :: rest =>
              match node_at (h.set a none) top with
              | none => none
              | some nt =>
                delete_loop fuel ((h.set a none).set top (some { nt with down := none }))
                  top rest := rfl

theorem delete_loop_leaf_step (fuel : Nat) (h : List (Option Node)) (a : Nat) (st : List Nat)
    (n : Node) (hn : node_at h a = some n) (hd : n.down = none) (hr : n.right = none) :
    delete_loop (fuel + 1) h a st =
      match st with
      | [] => some (h.set a none)
      | top :: rest =>
        match node_at (h.set a none) top with
        | none => none
        | some nt =>
          delete_loop fuel ((h.set a none).set top (some { nt with down := none })) top rest := by
  rw [delete_loop_succ]
  simp only [hn, hd, hr]

theorem delete_loop_shape (t : LT) : ∀ (h : List (Option Node)) (a : Nat) (st : List Nat)
    (fuel : Nat), t.root = some a → t.models h = true → t.addrs.Nodup →
    delete_loop (fuel + t.cost) h a st =
      match st with
      | [] => some (free_all h t.addrs)
      | top :: rest =>
        match node_at (free_all h t.addrs) top with
        | none => none
        | some nt =>
          delete_loop fuel ((free_all h t.addrs).set top (some { nt with down := none }))
            top rest := by
  induction t with
  | nil => intro h a st fuel hroot; simp [LT.root] at hroot
  | node b d r ihd ihr =>
    intro h a st fuel hroot hm hnd
    simp only [LT.root, Option.some.injEq] at hroot
    subst hroot
    obtain ⟨n, hn, hdown, hright, hmd, hmr⟩ := models_node.mp hm
    simp only [LT.addrs] at hnd
    have hnd_d : d.addrs.Nodup := (List.nodup_append.mp hnd).1
    have hnd_ar : (b :: r.addrs).Nodup := (List.nodup_append.mp hnd).2.1
    have hnd_r : r.addrs.Nodup := (List.nodup_cons.mp hnd_ar).2
    have hb_r : b ∉ r.addrs := (List.nodup_cons.mp hnd_ar).1
    have hdisj : ∀ x, x ∈ d.addrs → x ∉ b :: r.addrs := fun x hx hx1 =>
      (List.nodup_append.mp hnd).2.2 hx hx1
    have hb_d : b ∉ d.addrs := fun hx => hdisj b hx (by simp)
    -- the part of the loop that starts at `b` once `b` has no child left
    have key : ∀ (h1 : List (Option Node)) (n1 : Node), node_at h1 b = some n1 →
        n1.down = none → n1.right = r.root →
        (∀ x ∈ r.addrs, node_at h1 x = node_at h x) →
        delete_loop (fuel + r.cost + 1) h1 b st =
          match st with
          | [] => some (free_all (h1.set b none) r.addrs)
          | top :: rest =>
            match node_at (free_all (h1.set b none) r.addrs) top with
            | none => none
            | some nt =>
              delete_loop fuel
                ((free_all (h1.set b none) r.addrs).set top (some { nt with down := none }))
                top rest := by
      intro h1 n1 hn1 hd1 hr1 hframe
      cases hrr : r with
      | nil =>
        subst hrr
        simp only [LT.root] at hr1
        simpa [LT.cost, LT.addrs, free_all] using
          delete_loop_leaf_step fuel h1 b st n1 hn1 hd1 hr1
      | node c rd rr =>
        rw [hrr] at hr1
        simp only [LT.root] at hr1
        rw [delete_loop_succ]
        simp only [hn1, hd1, hr1]
        rw [← hrr]
        apply ihr _ c st fuel (by rw [hrr]; rfl) _ hnd_r
        apply models_frame r _ hmr
        intro x hx
        rw [node_at_set_ne _ (by rintro rfl; exact hb_r hx)]
        exact hframe x hx
    cases hdd : d with
    | nil =>
      subst hdd
      simp only [LT.root] at hdown
      have hcost : fuel + (LT.node b LT.nil r).cost = fuel + r.cost + 1 := by
        simp [LT.cost]; omega
      rw [hcost, key h n hn hdown hright (fun _ _ => rfl)]
      simp only [LT.addrs, List.nil_append, free_all_cons]
    | node c dd dr =>
      have hdroot : d.root = some c := by rw [hdd]; rfl
      rw [hdroot] at hdown
      have hcost : fuel + (LT.node b d r).cost = (fuel + r.cost + 1 + d.cost) + 1 := by
        have : d ≠ LT.nil := by rw [hdd]; simp
        simp [LT.cost, this]; omega
      rw [← hdd, hcost, delete_loop_succ]
      simp only [hn, hdown]
      rw [ihd h c (b :: st) (fuel + r.cost + 1) hdroot hmd hnd_d]
      simp only
      rw [node_at_free_all_of_not_mem _ _ _ hb_d, hn]
      simp only
      have hlen : b < (free_all h d.addrs).length := by
        rw [length_free_all]; exact node_at_lt hn
      rw [key _ { n with down := none } (node_at_set_eq _ hlen) rfl hright]
      · simp only [LT.addrs, free_all_append, free_all_cons, List.set_set]
      · intro x hx
        rw [node_at_set_ne _ (by rintro rfl; exact hb_r hx)]
        exact node_at_free_all_of_not_mem _ _ _ (fun hxd => hdisj x hxd (by simp [hx]))


theorem cost_le (t : LT) : t.cost ≤ 2 * t.addrs.length := by
  induction t with
  | nil => simp [LT.cost]
  | node a d r ihd ihr =>
    simp only [LT.cost, LT.addrs, List.length_append, List.length_cons]
    split <;> omega

theorem models_size_le {h : List (Option Node)} {t : LT} (hm : t.models h = true)
    (hnd : t.addrs.Nodup) : t.addrs.length ≤ h.length :=
  nodup_bounded_length hnd (fun a ha => by
    obtain ⟨n, hn⟩ := models_addrs_live t hm a ha
    exact node_at_lt hn)

theorem rooted_eq {t : LT} (hr : t.rooted = true) : ∃ a d, t = LT.node a d LT.nil := by
  cases t with
  | nil => simp [LT.rooted] at hr
  | node a d r =>
    cases r with
    | nil => exact ⟨a, d, rfl⟩
    | node _ _ _ => simp [LT.rooted] at hr

/-- C7: for every store that is a pure tree, `delete_current_pos` with the cursor at the
true root destroys every node of the tree and leaves a new root with null position,
no child, no sibling, no marks and no comment; the cursor is at that root with depth
0, an empty recording and the rotation tag cleared. -/
theorem delete_at_root_leaves_empty_tree (s : Tree) (t : LT)
    (hshape : TreeShape s t) (hpos : s.ppos = s.proot) (hseq : 0 < s.seq.length) :
    ∃ s1, delete_current_pos s = some s1 ∧
      s1.heap = free_all s.heap t.addrs ++ [some Node.fresh] ∧
      (∀ a ∈ t.addrs, node_at s1.heap a = none) ∧
      (∃ q n, s1.proot = some q ∧ q = s.heap.length ∧ node_at s1.heap q = some n ∧
        n.pos.position_null = true ∧ n.down = none ∧ n.right = none ∧
        n.marked = false ∧ n.marked_start = false ∧ n.has_comment = false) ∧
      s1.ppos = s1.proot ∧ s1.cdepth = 0 ∧ s1.seq[0]? = some s1.proot ∧
      s1.crec = [] ∧ s1.tag_rotate = 0 := by
  obtain ⟨hroot, hm, hnd, hrt⟩ := hshape
  obtain ⟨a, d, rfl⟩ := rooted_eq hrt
  have hppos : s.ppos = some a := by rw [hpos, hroot]; rfl
  have hcost : (LT.node a d LT.nil).cost ≤ 2 * s.heap.length + 1 := by
    have h1 := cost_le (LT.node a d LT.nil)
    have h2 := models_size_le hm hnd
    omega
  have hloop : delete_loop (2 * s.heap.length + 1) s.heap a [] =
      some (free_all s.heap (LT.node a d LT.nil).addrs) := by
    have hfuel : 2 * s.heap.length + 1 =
        (2 * s.heap.length + 1 - (LT.node a d LT.nil).cost) + (LT.node a d LT.nil).cost := by
      omega
    rw [hfuel, delete_loop_shape (LT.node a d LT.nil) s.heap a [] _ rfl hm hnd]
  have hlen : (free_all s.heap (LT.node a d LT.nil).addrs).length = s.heap.length :=
    length_free_all _ _
  refine ⟨{ s with heap := free_all s.heap (LT.node a d LT.nil).addrs ++ [some Node.fresh],
                   proot := some s.heap.length, ppos := some s.heap.length, cdepth := 0,
                   seq := s.seq.set 0 (some s.heap.length), crec := [], tag_rotate := 0 },
    ?_, rfl, ?_, ?_, rfl, rfl, ?_, rfl, rfl⟩
  · have hproot : s.proot = some a := by rw [hroot]; rfl
    simp only [delete_current_pos, hppos, hloop, alloc, pos_goto_root, hlen]
    simp [hproot, hseq]
  · intro x hx
    have hxlt : x < (free_all s.heap (LT.node a d LT.nil).addrs).length := by
      rw [hlen]
      obtain ⟨n, hn⟩ := models_addrs_live _ hm x hx
      exact node_at_lt hn
    simp only
    rw [node_at_append_left _ hxlt]
    exact node_at_free_all_of_mem _ _ _ hx
  · refine ⟨s.heap.length, Node.fresh, rfl, rfl, ?_, rfl, rfl, rfl, rfl, rfl, rfl⟩
    simp only
    rw [← hlen]
    exact node_at_append_new _ _
  · simp [List.getElem?_set, hseq]

theorem two_branches_eq : two_branches = some two_branches_state := by decide

/-- C7, at the tree `two_branches`: the hypotheses hold and the deletion at the root
leaves the empty tree. -/
theorem delete_at_root_leaves_empty_tree_witness :
    TreeShape two_branches_state two_branches_shape ∧
    two_branches_state.ppos = two_branches_state.proot ∧
    0 < two_branches_state.seq.length ∧
    ∃ s1, delete_current_pos two_branches_state = some s1 ∧
      s1.heap = free_all two_branches_state.heap two_branches_shape.addrs ++ [some Node.fresh] ∧
      (∀ a ∈ two_branches_shape.addrs, node_at s1.heap a = none) ∧
      (∃ q n, s1.proot = some q ∧ q = two_branches_state.heap.length ∧
        node_at s1.heap q = some n ∧
        n.pos.position_null = true ∧ n.down = none ∧ n.right = none ∧
        n.marked = false ∧ n.marked_start = false ∧ n.has_comment = false) ∧
      s1.ppos = s1.proot ∧ s1.cdepth = 0 ∧ s1.seq[0]? = some s1.proot ∧
      s1.crec = [] ∧ s1.tag_rotate = 0 :=
  ⟨by decide, by decide, by decide,
   delete_at_root_leaves_empty_tree two_branches_state two_branches_shape
     (by decide) (by decide) (by decide)⟩

/-! ## Navigation -/

theorem Sub.is_node {t u : LT} {k : Nat} (hs : Sub t k u) : ∃ a d r, u = LT.node a d r := by
  induction hs with
  | here a d r => exact ⟨a, d, r, rfl⟩
  | right _ ih => exact ih
  | down _ ih => exact ih

theorem Sub.models_of {h : List (Option Node)} {t u : LT} {k : Nat} (hs : Sub t k u) :
    t.models h = true → u.models h = true := by
  induction hs with
  | here a d r => exact id
  | right _ ih => intro hm; exact ih (models_node.mp hm).choose_spec.2.2.2.2
  | down _ ih => intro hm; exact ih (models_node.mp hm).choose_spec.2.2.2.1

theorem Sub.height_lt {t u : LT} {k : Nat} (hs : Sub t k u) : k < t.height := by
  induction hs with
  | here a d r => simp [LT.height]
  | right _ ih => simp only [LT.height]; omega
  | down _ ih => simp only [LT.height]; omega

theorem Sub.root_mem {t u : LT} {k : Nat} (hs : Sub t k u) :
    ∀ a, u.root = some a → a ∈ t.addrs := by
  induction hs with
  | here a d r => intro b hb; simp only [LT.root, Option.some.injEq] at hb; simp [LT.addrs, hb]
  | right _ ih => intro b hb; simp [LT.addrs, ih b hb]
  | down _ ih => intro b hb; simp [LT.addrs, ih b hb]

theorem Sub.size_le {t u : LT} {k : Nat} (hs : Sub t k u) :
    u.addrs.length ≤ t.addrs.length := by
  induction hs with
  | here a d r => exact le_refl _
  | right _ ih => simp only [LT.addrs, List.length_append, List.length_cons]; omega
  | down _ ih => simp only [LT.addrs, List.length_append, List.length_cons]; omega

theorem Sub.to_down {t u : LT} {k : Nat} (hs : Sub t k u) :
    ∀ a d r c dd dr, u = LT.node a d r → d = LT.node c dd dr → Sub t (k + 1) d := by
  induction hs with
  | here a d r =>
    intro a1 d1 r1 c dd dr hu hd
    simp only [LT.node.injEq] at hu
    obtain ⟨-, rfl, -⟩ := hu
    subst hd
    exact Sub.down (Sub.here c dd dr)
  | right _ ih => intro a1 d1 r1 c dd dr hu hd; exact Sub.right (ih a1 d1 r1 c dd dr hu hd)
  | down _ ih => intro a1 d1 r1 c dd dr hu hd; exact Sub.down (ih a1 d1 r1 c dd dr hu hd)

theorem Sub.to_right {t u : LT} {k : Nat} (hs : Sub t k u) :
    ∀ a d r c rd rr, u = LT.node a d r → r = LT.node c rd rr → Sub t k r := by
  induction hs with
  | here a d r =>
    intro a1 d1 r1 c rd rr hu hr
    simp only [LT.node.injEq] at hu
    obtain ⟨-, -, rfl⟩ := hu
    subst hr
    exact Sub.right (Sub.here c rd rr)
  | right _ ih => intro a1 d1 r1 c rd rr hu hr; exact Sub.right (ih a1 d1 r1 c rd rr hu hr)
  | down _ ih => intro a1 d1 r1 c rd rr hu hr; exact Sub.down (ih a1 d1 r1 c rd rr hu hr)

theorem nodup_node {a : Nat} {d r : LT} (hnd : (LT.node a d r).addrs.Nodup) :
    d.addrs.Nodup ∧ r.addrs.Nodup ∧ a ∉ d.addrs ∧ a ∉ r.addrs ∧
      ∀ x, x ∈ d.addrs → x ∉ r.addrs := by
  simp only [LT.addrs] at hnd
  have h1 := List.nodup_append.mp hnd
  have h2 := List.nodup_cons.mp h1.2.1
  refine ⟨h1.1, h2.2, ?_, h2.1, ?_⟩
  · intro hx; exact h1.2.2 hx (by simp)
  · intro x hx hxr; exact h1.2.2 hx (by simp [hxr])

theorem Sub.depth_unique {t u : LT} {k : Nat} (hs : Sub t k u) :
    ∀ (k1 : Nat) (u1 : LT), t.addrs.Nodup → Sub t k1 u1 → u.root = u1.root → k = k1 := by
  induction hs with
  | here a d r =>
    intro k1 u1 hnd h2 he
    obtain ⟨-, -, had, har, -⟩ := nodup_node hnd
    cases h2 with
    | here => rfl
    | right h2 => exact absurd (h2.root_mem a he.symm) har
    | down h2 => exact absurd (h2.root_mem a he.symm) had
  | @right a d r k u h1 ih =>
    intro k1 u1 hnd h2 he
    obtain ⟨-, hndr, had, har, hdisj⟩ := nodup_node hnd
    obtain ⟨b, bd, br, rfl⟩ := h1.is_node
    have hb : b ∈ r.addrs := h1.root_mem b rfl
    cases h2 with
    | here =>
      simp only [LT.root, Option.some.injEq] at he
      subst he
      exact absurd hb har
    | right h2 => exact ih k1 u1 hndr h2 he
    | down h2 => exact absurd hb (hdisj b (h2.root_mem b he.symm))
  | @down a d r k u h1 ih =>
    intro k1 u1 hnd h2 he
    obtain ⟨hndd, -, had, har, hdisj⟩ := nodup_node hnd
    obtain ⟨b, bd, br, rfl⟩ := h1.is_node
    have hb : b ∈ d.addrs := h1.root_mem b rfl
    cases h2 with
    | here =>
      simp only [LT.root, Option.some.injEq] at he
      subst he
      exact absurd hb had
    | right h2 => exact absurd (h2.root_mem b he.symm) (hdisj b hb)
    | down h2 => rw [ih _ u1 hndd h2 he]


theorem CursorInv.current {t : LT} {s : Tree} (inv : CursorInv t s) :
    ∃ a d r n, Sub t s.cdepth (LT.node a d r) ∧ s.ppos = some a ∧
      node_at s.heap a = some n ∧ n.down = d.root ∧ n.right = r.root ∧
      d.models s.heap = true ∧ r.models s.heap = true := by
  obtain ⟨u, hsub, hpos⟩ := inv.pos
  obtain ⟨a, d, r, rfl⟩ := hsub.is_node
  obtain ⟨n, hn, hd, hr, hmd, hmr⟩ := models_node.mp (hsub.models_of inv.shape.2.1)
  exact ⟨a, d, r, n, hsub, hpos, hn, hd, hr, hmd, hmr⟩

theorem pos_move_down_inv {t : LT} {s : Tree} (inv : CursorInv t s) :
    ∃ b s1, pos_move_down s = some (b, s1) ∧ CursorInv t s1 ∧ (b = false → s1 = s) := by
  obtain ⟨a, d, r, n, hsub, hpos, hn, hd, hr, hmd, hmr⟩ := inv.current
  cases hdd : d with
  | nil =>
    rw [hdd] at hd
    refine ⟨false, s, ?_, inv, fun _ => rfl⟩
    simp only [pos_move_down, hpos, hn, hd, LT.root]
  | node c dd dr =>
    have hsub1 : Sub t (s.cdepth + 1) d := hsub.to_down a d r c dd dr rfl hdd
    have hlt := hsub1.height_lt
    have hseq := inv.cap_seq
    have hdep := inv.cap_depth
    have hmod : (s.cdepth + 1) % 65536 = s.cdepth + 1 := Nat.mod_eq_of_lt (by omega)
    rw [hdd] at hd hmd hsub1
    obtain ⟨nc, hnc, -⟩ := models_node.mp hmd
    simp only [LT.root] at hd
    refine ⟨true, { s with ppos := some c, cdepth := s.cdepth + 1,
                           seq := s.seq.set (s.cdepth + 1) (some c),
                           crec := s.crec.domove nc.pos }, ?_, ?_, fun hb => by simp at hb⟩
    · simp only [pos_move_down, hpos, hn, hd, hnc, hmod]
      rw [if_pos (by omega)]
    · refine ⟨inv.shape, ?_, hdep, ⟨_, hsub1, rfl⟩, ?_, ?_⟩
      · simpa using hseq
      · intro i hi
        simp only at hi
        by_cases hik : i = s.cdepth + 1
        · subst hik
          refine ⟨_, hsub1, ?_⟩
          simp only [LT.root]
          rw [List.getElem?_set_self (by omega)]
        · obtain ⟨u, hu, hsu⟩ := inv.path i (by omega)
          refine ⟨u, hu, ?_⟩
          simp only
          rw [List.getElem?_set_ne (by omega)]
          exact hsu
      · simp [Recording.domove, inv.len]

theorem pos_move_up_inv {t : LT} {s : Tree} (inv : CursorInv t s) :
    ∃ b s1, pos_move_up s = some (b, s1) ∧ CursorInv t s1 ∧ (b = false → s1 = s) := by
  by_cases hk : s.cdepth < 1
  · exact ⟨false, s, by simp [pos_move_up, hk], inv, fun _ => rfl⟩
  · obtain ⟨u, hu, hsu⟩ := inv.path (s.cdepth - 1) (by omega)
    refine ⟨true, { s with ppos := u.root, cdepth := s.cdepth - 1, crec := s.crec.undo },
      ?_, ?_, fun hb => by simp at hb⟩
    · simp only [pos_move_up, hk, if_false, hsu]
    · refine ⟨inv.shape, inv.cap_seq, inv.cap_depth, ⟨u, hu, rfl⟩, ?_, ?_⟩
      · intro i hi
        simp only at hi
        exact inv.path i (by omega)
      · simp [Recording.undo, inv.len]

theorem sub_zero_of_rooted {t u : LT} (hr : t.rooted = true) (hs : Sub t 0 u) : u = t := by
  obtain ⟨a, d, rfl⟩ := rooted_eq hr
  cases hs with
  | here => rfl
  | right h => cases h

theorem pos_move_right_inv {t : LT} {s : Tree} (inv : CursorInv t s) :
    ∃ b s1, pos_move_right s = some (b, s1) ∧ CursorInv t s1 ∧ (b = false → s1 = s) := by
  obtain ⟨a, d, r, n, hsub, hpos, hn, hd, hr, hmd, hmr⟩ := inv.current
  cases hrr : r with
  | nil =>
    rw [hrr] at hr
    refine ⟨false, s, ?_, inv, fun _ => rfl⟩
    simp only [pos_move_right, hpos, hn, hr, LT.root]
  | node c rd rr =>
    have hsub1 : Sub t s.cdepth r := hsub.to_right a d r c rd rr rfl hrr
    have hpos_depth : 0 < s.cdepth := by
      by_contra h0
      have h0 : s.cdepth = 0 := by omega
      rw [h0] at hsub
      have := sub_zero_of_rooted inv.shape.2.2.2 hsub
      obtain ⟨a1, d1, ht⟩ := rooted_eq inv.shape.2.2.2
      rw [ht] at this
      simp only [LT.node.injEq] at this
      rw [this.2.2] at hrr
      cases hrr
    rw [hrr] at hr hmr hsub1
    obtain ⟨nr, hnr, -⟩ := models_node.mp hmr
    simp only [LT.root] at hr
    refine ⟨true, { s with ppos := some c, crec := s.crec.undo.domove nr.pos },
      ?_, ?_, fun hb => by simp at hb⟩
    · simp only [pos_move_right, hpos, hn, hr, hnr]
    · refine ⟨inv.shape, inv.cap_seq, inv.cap_depth, ⟨_, hsub1, rfl⟩, inv.path, ?_⟩
      have := inv.len
      simp only [Recording.domove, Recording.undo, List.length_append, List.length_dropLast,
        List.length_singleton]
      omega


theorem spine_length_le (w : LT) : w.spine.length ≤ w.addrs.length := by
  induction w with
  | nil => simp [LT.spine]
  | node a d r _ ihr =>
    simp only [LT.spine, LT.addrs, List.length_append, List.length_cons]
    omega

theorem left_scan_succ_none (h : List (Option Node)) (target : Option Nat) (fuel : Nat) :
    left_scan h target (fuel + 1) none = some none := rfl

theorem left_scan_succ_some (h : List (Option Node)) (target : Option Nat) (fuel a : Nat) :
    left_scan h target (fuel + 1) (some a) =
      match node_at h a with
      | none => none
      | some n =>
        if n.right ≠ target then left_scan h target fuel n.right else some (some a) := rfl

/-- The scan of `pos_move_left` along a sibling chain of another depth than the
cursor's never meets the cursor and ends at `NULL`. -/
theorem left_scan_none {t : LT} {h : List (Option Node)} (hm : t.models h = true)
    (hnd : t.addrs.Nodup) {k a : Nat} {u : LT} (hu : Sub t k u) (hroot : u.root = some a) :
    ∀ (w : LT) (j fuel : Nat), j ≠ k → Sub t j w → w.spine.length < fuel →
      left_scan h (some a) fuel w.root = some none := by
  intro w
  induction w with
  | nil => intro j fuel _ hw; obtain ⟨_, _, _, hcon⟩ := hw.is_node; cases hcon
  | node p d r _ ihr =>
    intro j fuel hjk hw hfuel
    obtain ⟨n, hn, -, hr, -, -⟩ := models_node.mp (hw.models_of hm)
    simp only [LT.spine, List.length_cons] at hfuel
    obtain ⟨f, rfl⟩ : ∃ f, fuel = f + 1 := ⟨fuel - 1, by omega⟩
    simp only [LT.root]
    rw [left_scan_succ_some, hn]
    simp only
    cases hrr : r with
    | nil =>
      rw [hrr] at hr hfuel
      simp only [LT.spine, List.length_nil] at hfuel
      obtain ⟨f1, rfl⟩ : ∃ f1, f = f1 + 1 := ⟨f - 1, by omega⟩
      simp only [LT.root] at hr
      rw [hr, if_pos (by simp), left_scan_succ_none]
    | node c rd rr =>
      have hwr : Sub t j r := hw.to_right p d r c rd rr rfl hrr
      have hne : r.root ≠ some a := by
        intro he
        exact hjk (hwr.depth_unique k u hnd hu (he.trans hroot.symm))
      rw [hr, if_pos hne]
      exact ihr j f hjk hwr (by omega)

theorem pos_move_left_inv {t : LT} {s : Tree} (inv : CursorInv t s) :
    ∃ b s1, pos_move_left s = some (b, s1) ∧ CursorInv t s1 ∧ (b = false → s1 = s) := by
  refine ⟨false, s, ?_, inv, fun _ => rfl⟩
  by_cases hk : s.cdepth < 1
  · simp [pos_move_left, hk]
  · obtain ⟨w, hw, hsw⟩ := inv.path (s.cdepth - 1) (by omega)
    obtain ⟨u, hu, hpos⟩ := inv.pos
    obtain ⟨a, d, r, rfl⟩ := hu.is_node
    have hsize : w.spine.length < s.heap.length + 1 := by
      have h1 := spine_length_le w
      have h2 := hw.size_le
      have h3 := models_size_le inv.shape.2.1 inv.shape.2.2.1
      omega
    have hscan := left_scan_none inv.shape.2.1 inv.shape.2.2.1 hu rfl w (s.cdepth - 1)
      (s.heap.length + 1) (by omega) hw hsize
    simp only [pos_move_left, hk, if_false, hsw, hpos, LT.root]
    simp only [LT.root] at hscan
    rw [hscan]

theorem nav_step {t : LT} {s : Tree} (inv : CursorInv t s) (op : Nav) :
    ∃ b s1, op.call s = some (b, s1) ∧ CursorInv t s1 ∧ (b = false → s1 = s) := by
  cases op with
  | down => exact pos_move_down_inv inv
  | up => exact pos_move_up_inv inv
  | right => exact pos_move_right_inv inv
  | left => exact pos_move_left_inv inv

theorem navigate_inv {t : LT} (ops : List Nav) : ∀ s : Tree, CursorInv t s →
    ∃ s1, navigate ops s = some s1 ∧ CursorInv t s1 := by
  induction ops with
  | nil => intro s inv; exact ⟨s, rfl, inv⟩
  | cons op ops ih =>
    intro s inv
    obtain ⟨b, s1, hcall, inv1, -⟩ := nav_step inv op
    obtain ⟨s2, hnav, inv2⟩ := ih s1 inv1
    exact ⟨s2, by simp only [navigate, hcall, hnav], inv2⟩

theorem height_pos_of_rooted {t : LT} (hr : t.rooted = true) : 0 < t.height := by
  obtain ⟨a, d, rfl⟩ := rooted_eq hr
  simp [LT.height]

theorem cursor_inv_at_root {t : LT} {s0 : Tree} (hshape : TreeShape s0 t)
    (hcap : t.height ≤ s0.seq.length) (hcap1 : t.height ≤ 65536) :
    ∃ s, pos_goto_root s0 = some s ∧ CursorInv t s ∧ s.cdepth = 0 ∧ s.crec = [] ∧
      s.ppos = s.proot := by
  have hpos := height_pos_of_rooted hshape.2.2.2
  have hlen : 0 < s0.seq.length := by omega
  obtain ⟨a, d, ht⟩ := rooted_eq hshape.2.2.2
  refine ⟨{ s0 with ppos := s0.proot, cdepth := 0, seq := s0.seq.set 0 s0.proot,
                     crec := [], tag_rotate := 0 },
    by simp only [pos_goto_root, hlen, if_true], ?_, rfl, rfl, rfl⟩
  refine ⟨hshape, by simpa using hcap, hcap1, ?_, ?_, rfl⟩
  · refine ⟨t, ?_, hshape.1⟩
    rw [ht]; exact Sub.here a d LT.nil
  · intro i hi
    simp only [Nat.le_zero] at hi
    subst hi
    refine ⟨t, by rw [ht]; exact Sub.here a d LT.nil, ?_⟩
    simp only
    rw [List.getElem?_set_self hlen, hshape.1]

/-- C4: on every store that is a pure tree no deeper than the path array, starting
from the cursor at the root (depth 0, empty recording), every sequence of
`pos_move_down` / `pos_move_up` / `pos_move_right` / `pos_move_left` calls runs to its
end and leaves a state in which the recording holds as many moves as the depth
counter says; and in that state each of the four calls returns, keeps the two numbers
equal and, when it returns false, changes nothing at all. -/
theorem recording_length_eq_depth (s0 : Tree) (t : LT) (hshape : TreeShape s0 t)
    (hcap : t.height ≤ s0.seq.length) (hcap1 : t.height ≤ 65536) (ops : List Nav) :
    ∃ s, pos_goto_root s0 = some s ∧ s.cdepth = 0 ∧ s.crec = [] ∧
      ∃ s1, navigate ops s = some s1 ∧ s1.crec.length = s1.cdepth ∧
        ∀ op : Nav, ∃ b s2, op.call s1 = some (b, s2) ∧ s2.crec.length = s2.cdepth ∧
          (b = false → s2 = s1) := by
  obtain ⟨s, hs, inv, hd, hc, -⟩ := cursor_inv_at_root hshape hcap hcap1
  obtain ⟨s1, hnav, inv1⟩ := navigate_inv ops s inv
  refine ⟨s, hs, hd, hc, s1, hnav, inv1.len, ?_⟩
  intro op
  obtain ⟨b, s2, hcall, inv2, hfalse⟩ := nav_step inv1 op
  exact ⟨b, s2, hcall, inv2.len, hfalse⟩

/-- C4, at the tree `two_branches` and the calls down, right, down, up, left: the
hypotheses hold and the recording has as many moves as the depth says. -/
theorem recording_length_eq_depth_witness :
    TreeShape two_branches_state two_branches_shape ∧
    two_branches_shape.height ≤ two_branches_state.seq.length ∧
    two_branches_shape.height ≤ 65536 ∧
    ∃ s, pos_goto_root two_branches_state = some s ∧ s.cdepth = 0 ∧ s.crec = [] ∧
      ∃ s1, navigate [Nav.down, Nav.right, Nav.down, Nav.up, Nav.left] s = some s1 ∧
        s1.crec.length = s1.cdepth ∧
        ∀ op : Nav, ∃ b s2, op.call s1 = some (b, s2) ∧ s2.crec.length = s2.cdepth ∧
          (b = false → s2 = s1) :=
  ⟨by decide, by decide, by decide,
   recording_length_eq_depth two_branches_state two_branches_shape
     (by decide) (by decide) (by decide) [Nav.down, Nav.right, Nav.down, Nav.up, Nav.left]⟩

/-! ## Query at the root -/

theorem query_scan_succ_none (h : List (Option Node)) (pos : Move) (fuel : Nat) :
    query_scan h pos (fuel + 1) none = some none := rfl

theorem query_scan_succ_some (h : List (Option Node)) (pos : Move) (fuel a : Nat) :
    query_scan h pos (fuel + 1) (some a) =
      match node_at h a with
      | none => none
      | some n => if n.pos = pos then some (some a) else query_scan h pos fuel n.right := rfl

/-- The scan of `query(Move)` over a sibling chain none of whose nodes holds the move
ends at `NULL`. -/
theorem query_scan_none {h : List (Option Node)} (pos : Move) :
    ∀ (w : LT) (fuel : Nat), w.models h = true →
      (∀ c ∈ w.spine, ∀ n, node_at h c = some n → n.pos ≠ pos) →
      w.spine.length < fuel → query_scan h pos fuel w.root = some none := by
  intro w
  induction w with
  | nil =>
    intro fuel _ _ hfuel
    obtain ⟨f, rfl⟩ : ∃ f, fuel = f + 1 := ⟨fuel - 1, by omega⟩
    rfl
  | node p d r _ ihr =>
    intro fuel hm hne hfuel
    obtain ⟨n, hn, -, hr, -, hmr⟩ := models_node.mp hm
    simp only [LT.spine, List.length_cons] at hfuel
    obtain ⟨f, rfl⟩ : ∃ f, fuel = f + 1 := ⟨fuel - 1, by omega⟩
    simp only [LT.root]
    rw [query_scan_succ_some, hn]
    simp only
    rw [if_neg (hne p (by simp [LT.spine]) n hn), hr]
    exact ihr f hmr (fun c hc => hne c (by simp [LT.spine, hc])) (by omega)

theorem spine_kids_length_le (t : LT) : t.kids.spine.length ≤ t.addrs.length := by
  cases t with
  | nil => simp [LT.kids, LT.spine]
  | node a d r =>
    have := spine_length_le d
    simp only [LT.kids, LT.addrs, List.length_append, List.length_cons]
    omega

/-- The extent of the missing symmetry search at the root: for every store that is a
pure tree, with the cursor at the true root, a recording whose first move is
the move of no child of the root is answered by `query` with 0 and the state is left as
it was - cursor, depth, path, recording and rotation tag: the test
`if (this->ppos == this->proot) return 0;` ends the call before any symmetry transform
is tried. -/
theorem query_at_root_without_match (s : Tree) (t : LT) (m : Move) (rest : Recording)
    (k : Nat) (hshape : TreeShape s t) (hpos : s.ppos = s.proot)
    (hnone : ∀ c ∈ t.kids.spine, Option.map Node.pos (node_at s.heap c) ≠ some m) :
    query (k + 1) (m :: rest) s = some (0, s) := by
  obtain ⟨hroot, hm, hnd, hrt⟩ := hshape
  obtain ⟨a, d, rfl⟩ := rooted_eq hrt
  simp only [LT.root] at hroot
  obtain ⟨n, hn, hd, -, hmd, -⟩ := models_node.mp hm
  have hppos : s.ppos = some a := hpos.trans hroot
  have hfuel : d.spine.length < s.heap.length + 1 := by
    have h1 := spine_kids_length_le (LT.node a d LT.nil)
    have h2 := models_size_le hm hnd
    simp only [LT.kids] at h1
    omega
  have hscan := query_scan_none m d (s.heap.length + 1) hmd
    (fun c hc n hcn hcm => hnone c hc (by rw [hcn, ← hcm]; rfl)) hfuel
  cases hdd : d with
  | nil =>
    rw [hdd] at hd
    simp only [LT.root] at hd
    simp [query, hroot, deref, hn, hd]
  | node c dd dr =>
    rw [hdd] at hd hscan
    simp only [LT.root] at hd hscan
    simp [query, hroot, deref, hn, hd, hppos, query_Move, hscan]

theorem one_line_eq : one_line = some one_line_state := by decide

/-- The theorem `query_at_root_without_match` at the tree holding the line `[(1,2)]` and
the recording `[(2,1)]`: the hypotheses hold and `query` returns 0 with the state
unchanged. -/
theorem query_at_root_without_match_witness :
    TreeShape one_line_state one_line_shape ∧
    one_line_state.ppos = one_line_state.proot ∧
    (∀ c ∈ one_line_shape.kids.spine,
      Option.map Node.pos (node_at one_line_state.heap c) ≠ some ⟨2, 1⟩) ∧
    query (1 + 1) [⟨2, 1⟩] one_line_state = some (0, one_line_state) :=
  ⟨by decide, by decide, by decide,
   query_at_root_without_match one_line_state one_line_shape ⟨2, 1⟩ [] 1
     (by decide) (by decide) (by decide)⟩

/-- C9 (failing input): the tree holds the single line `[(1,2)]` and the cursor is at
the true root; the recording `[(2,1)]` is not empty and matches no child of the root.
Matched from the root, its 8 transforms have the match lengths 0, 0, 0, 0, 0, 0, 1, 0:
its image under transform 6 is the stored line `[(1,2)]`, matched in full. Yet `query`
of `[(2,1)]` at the root returns 0, not the move count 1, and leaves the state as it
was; the same call with the cursor on the node `(1,2)` runs the search and returns 1. -/
theorem symmetry_search_not_run_at_root :
    one_line = some one_line_state ∧
    one_line.map (fun s => decide (s.ppos = s.proot)) = some true ∧
    one_line.map (fun s => heap_links s.heap)
      = some [some (⟨31, 31⟩, some 1, none), some (⟨1, 2⟩, none, none)] ∧
    ([⟨2, 1⟩] : Recording).length = 1 ∧
    (List.range 8).map
      (fun r => value_of (query 2 (Recording.board_rotate 15 r false [⟨2, 1⟩])) one_line)
      = [some 0, some 0, some 0, some 0, some 0, some 0, some 1, some 0] ∧
    Recording.board_rotate 15 6 false [⟨2, 1⟩] = [⟨1, 2⟩] ∧
    value_of (query 2 [⟨1, 2⟩]) one_line = some 1 ∧
    value_of (query 2 [⟨2, 1⟩]) one_line = some 0 ∧
    and_then (query 2 [⟨2, 1⟩]) one_line = one_line ∧
    value_of (query 2 [⟨2, 1⟩]) (and_then pos_move_down one_line) = some 1 :=
  ⟨by decide, by decide, by decide, by decide, by decide, by decide, by decide, by decide,
   by decide, by decide⟩

/-! ## Failed decoding -/

theorem Grows.refl (rt : Nat) (h : List (Option Node)) : Grows rt h h :=
  ⟨fun _ _ => rfl, fun _ ha => ha, le_refl _⟩

theorem Grows.trans {rt : Nat} {h h1 h2 : List (Option Node)} (g1 : Grows rt h h1)
    (g2 : Grows rt h1 h2) : Grows rt h h2 :=
  ⟨fun a ha => (g2.1 a ha).trans (g1.1 a ha), fun a ha => g2.2.1 a (g1.2.1 a ha),
   le_trans g1.2.2 g2.2.2⟩

theorem grows_set {rt x : Nat} (h : List (Option Node)) (v : Node) (hx : rt < x) :
    Grows rt h (h.set x (some v)) := by
  refine ⟨fun a ha => node_at_set_ne _ (by omega), fun a ha => ?_, by simp⟩
  by_cases hax : x = a
  · subst hax
    have hlt : x < h.length := by
      cases hn : node_at h x with
      | none => rw [hn] at ha; simp at ha
      | some n => exact node_at_lt hn
    rw [node_at_set_eq _ hlt]; rfl
  · rw [node_at_set_ne _ hax]; exact ha

theorem grows_append {rt : Nat} (h l : List (Option Node)) (hrt : rt < h.length) :
    Grows rt h (h ++ l) := by
  refine ⟨fun a ha => node_at_append_left _ (by omega), fun a ha => ?_, by simp⟩
  have hlt : a < h.length := by
    cases hn : node_at h a with
    | none => rw [hn] at ha; simp at ha
    | some n => exact node_at_lt hn
  rw [node_at_append_left _ hlt]; exact ha

theorem link_next_grows {rt ppos q : Nat} {h h3 : List (Option Node)} {leaf : Bool}
    {st st2 : List Nat} (hl : link_next h ppos q leaf st = some (some (h3, st2)))
    (hp : rt < ppos) (hst : ∀ x ∈ st, rt < x) :
    Grows rt h h3 ∧ (∀ x ∈ st2, rt < x) := by
  unfold link_next at hl
  split at hl
  · split at hl
    · simp at hl
    · rename_i top rest
      split at hl
      · simp at hl
      · simp only [Option.some.injEq, Prod.mk.injEq] at hl
        obtain ⟨rfl, rfl⟩ := hl
        exact ⟨grows_set _ _ (hst top (by simp)), fun x hx => hst x (by simp [hx])⟩
  · split at hl
    · simp at hl
    · simp only [Option.some.injEq, Prod.mk.injEq] at hl
      obtain ⟨rfl, rfl⟩ := hl
      exact ⟨grows_set _ _ hp, hst⟩

theorem load_loop_succ (data : List Nat) (fuel : Nat) (h : List (Option Node))
    (comments : List (List Nat)) (ppos : Nat) (st : List Nat) (i : Nat) (pn : Option Nat) :
    load_loop data (fuel + 1) h comments ppos st i pn =
    if i < data.length then
      match Renlib_Node.read data i with
      | none => none
      | some rn =>
        match node_at (h ++ [some Node.fresh]) ppos with
        | none => none
        | some n =>
          let n1 : Node :=
            if rn.x ≠ 0 ∨ rn.y ≠ 0 then
              { n with pos := ⟨Move.coord ((rn.x : Int) - 1), Move.coord (15 - (rn.y : Int) - 1)⟩ }
            else n
          let h2 := (h ++ [some Node.fresh]).set ppos
            (some { n1 with marked := rn.mark, marked_start := rn.start })
          let st1 := if rn.has_sibling then ppos :: st else st
          match link_next h2 ppos h.length rn.is_leaf st1 with
          | none => none
          | some none => some ⟨h2, comments, ppos, some h.length⟩
          | some (some (h3, st2)) =>
            if rn.comment || rn.old_comment then
              match node_at h3 ppos, read_cstring data (data.length + 1) (i + 2) with
              | some nn, some (str, j) =>
                match skip_nul data (data.length + 1) j with
                | none => none
                | some j1 =>
                  load_loop data fuel
                    (h3.set ppos (some { nn with has_comment := true,
                                                 tag_comment := comments.length }))
                    (comments ++ [str]) h.length st2 j1 (some h.length)
              | _, _ => none
            else load_loop data fuel h3 comments h.length st2 (i + 2) (some h.length)
    else some ⟨h, comments, ppos, pn⟩ := rfl

/-- The decoding loop writes only into the node it is at, into nodes of its stack and
into new cells: above an address that lies below all of them the heap only grows. -/
theorem load_loop_grows (data : List Nat) (rt : Nat) : ∀ (fuel : Nat) (h : List (Option Node))
    (comments : List (List Nat)) (ppos : Nat) (st : List Nat) (i : Nat) (pn : Option Nat)
    (res : LoadResult), load_loop data fuel h comments ppos st i pn = some res →
    rt < ppos → (∀ x ∈ st, rt < x) → rt < h.length → Grows rt h res.heap := by
  intro fuel
  induction fuel with
  | zero => intro h comments ppos st i pn res hres; simp [load_loop] at hres
  | succ fuel ih =>
    intro h comments ppos st i pn res hres hp hst hrt
    rw [load_loop_succ] at hres
    split at hres
    · split at hres
      · simp at hres
      · rename_i rn hrn
        split at hres
        · simp at hres
        · rename_i n hn
          simp only at hres
          have g1 : Grows rt h (h ++ [some Node.fresh]) := grows_append _ _ hrt
          have hst1 : ∀ x ∈ (if rn.has_sibling then ppos :: st else st), rt < x := by
            intro x hx
            split at hx
            · simp only [List.mem_cons] at hx
              rcases hx with rfl | hx
              · exact hp
              · exact hst x hx
            · exact hst x hx
          split at hres
          · simp at hres
          · simp only [Option.some.injEq] at hres
            subst hres
            exact g1.trans (grows_set _ _ hp)
          · rename_i h3 st2 hlink
            obtain ⟨g3, hst2⟩ := link_next_grows hlink hp hst1
            have g13 := (g1.trans (grows_set _ _ hp)).trans g3
            have hlen3 : rt < h3.length := lt_of_lt_of_le hrt g13.2.2
            split at hres
            · split at hres
              · split at hres
                · simp at hres
                · have := ih _ _ _ _ _ _ _ hres (by omega) hst2 (by simpa using hlen3)
                  exact (g13.trans (grows_set _ _ hp)).trans this
              · simp at hres
            · exact g13.trans (ih _ _ _ _ _ _ _ hres (by omega) hst2 hlen3)
    · simp only [Option.some.injEq] at hres
      subst hres
      exact Grows.refl _ _


theorem delete_loop_length : ∀ (fuel : Nat) (h : List (Option Node)) (a : Nat) (st : List Nat)
    (h1 : List (Option Node)), delete_loop fuel h a st = some h1 → h1.length = h.length := by
  intro fuel
  induction fuel with
  | zero => intro h a st h1 hd; simp [delete_loop] at hd
  | succ fuel ih =>
    intro h a st h1 hd
    rw [delete_loop_succ] at hd
    split at hd
    · simp at hd
    · split at hd
      · exact ih _ _ _ _ hd
      · split at hd
        · rw [ih _ _ _ _ hd]; simp
        · split at hd
          · simp only [Option.some.injEq] at hd
            subst hd; simp
          · split at hd
            · simp at hd
            · rw [ih _ _ _ _ hd]; simp

theorem delete_current_pos_length {s s1 : Tree} (hd : delete_current_pos s = some s1) :
    s.heap.length ≤ s1.heap.length := by
  unfold delete_current_pos at hd
  split at hd
  · simp only [Option.some.injEq] at hd
    subst hd; exact le_refl _
  · split at hd
    · simp at hd
    · rename_i h hloop
      have hlen := delete_loop_length _ _ _ _ _ hloop
      split at hd
      · simp only at hd
        split at hd
        · simp at hd
        · simp only [Option.some.injEq] at hd
          subst hd; simp [hlen]
      · simp only [alloc, pos_goto_root] at hd
        split at hd
        · simp only [Option.some.injEq] at hd
          subst hd; simp [hlen]
        · simp at hd

theorem pos_goto_root_eq {s s1 : Tree} (hg : pos_goto_root s = some s1) :
    s1 = { s with ppos := s.proot, cdepth := 0, seq := s.seq.set 0 s.proot, crec := [],
                  tag_rotate := 0 } := by
  unfold pos_goto_root at hg
  split at hg
  · simp only [Option.some.injEq] at hg
    exact hg.symm
  · simp at hg

/-- The first steps of `load_renlib` after the old tree is deleted: the new root `rt`
and its working child `rt + 1`. -/
theorem new_descendent_at_new_root (s2 : Tree) :
    new_descendent { s2 with heap := s2.heap ++ [some Node.fresh],
                             proot := some s2.heap.length, ppos := some s2.heap.length } =
      some (some (s2.heap.length + 1),
        { s2 with heap := (s2.heap ++ [some Node.fresh] ++ [some Node.fresh]).set s2.heap.length
                    (some { Node.fresh with down := some (s2.heap.length + 1) }),
                  proot := some s2.heap.length, ppos := some s2.heap.length }) := by
  simp only [new_descendent, node_at_append_new, Node.fresh, alloc]
  simp


/-- C10 (amended): for every byte stream that passes the magic check and on which
`load_renlib` returns false, the store afterwards is the partially built tree: the
root is a new node (not a cell of the prior store) with null position and no sibling,
its first child is the working node the loader created, which is live (so the store
is not the empty tree), and the cursor is at that root with depth 0 and an empty
recording. -/
theorem failed_decode_keeps_partial_tree (data : List Nat) (s s1 : Tree)
    (hmagic : is_renlib_file data = true)
    (hload : load_renlib data s = some (Outcome.returned false s1)) :
    ∃ rt w n, s1.proot = some rt ∧ s.heap.length ≤ rt ∧ node_at s1.heap rt = some n ∧
      n.pos = Move.null_position ∧ n.down = some w ∧ n.right = none ∧
      (node_at s1.heap w).isSome = true ∧
      s1.ppos = s1.proot ∧ s1.cdepth = 0 ∧ s1.crec = [] := by
  unfold load_renlib at hload
  split at hload
  · simp at hload
  · rw [hmagic] at hload
    simp only [Bool.not_true, Bool.false_eq_true, if_false] at hload
    split at hload
    · simp at hload
    · rename_i sa hsa
      split at hload
      · simp at hload
      · rename_i s2 hs2
        have hlen2 : s.heap.length ≤ s2.heap.length := by
          have h1 := delete_current_pos_length hs2
          rw [pos_goto_root_eq hsa] at h1
          exact h1
        simp only [alloc] at hload
        rw [new_descendent_at_new_root] at hload
        simp only at hload
        split at hload
        · simp at hload
        · rename_i b s5 hs5
          -- the state after `pos_move_down`
          have hL : s2.heap.length < (s2.heap ++ [some Node.fresh] ++ [some Node.fresh]).length := by
            simp
          have hroot4 : node_at ((s2.heap ++ [some Node.fresh] ++ [some Node.fresh]).set
              s2.heap.length (some { Node.fresh with down := some (s2.heap.length + 1) }))
              s2.heap.length = some { Node.fresh with down := some (s2.heap.length + 1) } :=
            node_at_set_eq _ hL
          have hw4 : node_at ((s2.heap ++ [some Node.fresh] ++ [some Node.fresh]).set
              s2.heap.length (some { Node.fresh with down := some (s2.heap.length + 1) }))
              (s2.heap.length + 1) = some Node.fresh := by
            rw [node_at_set_ne _ (by omega)]
            have := node_at_append_new (s2.heap ++ [some Node.fresh]) (some Node.fresh)
            simpa using this
          simp only [pos_move_down, hroot4, hw4] at hs5
          split at hs5
          · simp only [Option.some.injEq, Prod.mk.injEq] at hs5
            obtain ⟨-, rfl⟩ := hs5
            simp only at hload
            split at hload
            · rename_i w b0 hw hb0
              simp only [Option.some.injEq] at hw
              subst hw
              split at hload
              · simp at hload
              · rename_i res hres
                split at hload
                · simp at hload
                · rename_i q hq
                  have hg := load_loop_grows data s2.heap.length _ _ _ _ _ _ _ _ hres
                    (by omega) (by simp) (by simp)
                  split at hload
                  · split at hload
                    · simp at hload
                    · simp at hload
                  · split at hload
                    · simp at hload
                    · rename_i s6 hs6
                      simp only [Option.some.injEq, Outcome.returned.injEq, true_and] at hload
                      subst hload
                      rw [pos_goto_root_eq hs6]
                      refine ⟨s2.heap.length, s2.heap.length + 1,
                        { Node.fresh with down := some (s2.heap.length + 1) },
                        rfl, hlen2, ?_, rfl, rfl, rfl, ?_, rfl, rfl, rfl⟩
                      · simp only
                        rw [hg.1 _ (le_refl _), hroot4]
                      · simp only
                        apply hg.2.1
                        rw [hw4]; rfl
            · simp at hload
          · simp at hs5

theorem empty_tree_eq : Tree.init 15 [] = some empty_tree_state := by decide

/-- C10 (amended), at the file `truncated_file` decoded into the empty tree: the
hypotheses hold and the partially built tree is the store. -/
theorem failed_decode_keeps_partial_tree_witness :
    is_renlib_file truncated_file = true ∧
    load_renlib truncated_file empty_tree_state
      = some (Outcome.returned false truncated_decoded_state) ∧
    ∃ rt w n, truncated_decoded_state.proot = some rt ∧ empty_tree_state.heap.length ≤ rt ∧
      node_at truncated_decoded_state.heap rt = some n ∧
      n.pos = Move.null_position ∧ n.down = some w ∧ n.right = none ∧
      (node_at truncated_decoded_state.heap w).isSome = true ∧
      truncated_decoded_state.ppos = truncated_decoded_state.proot ∧
      truncated_decoded_state.cdepth = 0 ∧ truncated_decoded_state.crec = [] :=
  ⟨by decide, by decide,
   failed_decode_keeps_partial_tree truncated_file empty_tree_state truncated_decoded_state
     (by decide) (by decide)⟩

/-- C10 (counterexample): the file `truncated_file` has the valid magic prefix and
`load_renlib` returns false on it, the store before the call being the empty tree
(a root without child); afterwards the root has the child `(7,7)`, which itself has a
child: the store is neither the empty tree nor the tree present before the call. -/
theorem failed_decode_leaves_partial_tree_attached :
    Renlib_Header.take 8 = truncated_file.take 8 ∧
    is_renlib_file truncated_file = true ∧
    (deref empty_tree_state.heap empty_tree_state.proot).map Node.down = some none ∧
    (load_renlib truncated_file empty_tree_state).bind Outcome.value = some false ∧
    (load_renlib truncated_file empty_tree_state).map Outcome.state
      = some truncated_decoded_state ∧
    (deref truncated_decoded_state.heap truncated_decoded_state.proot).map Node.down
      = some (some 3) ∧
    (node_at truncated_decoded_state.heap 3).map (fun n => (n.pos, n.down))
      = some (⟨7, 7⟩, some 4) := by
  decide

/-! ## Behaviour at concrete inputs -/

/-- C1 (failing input): the tree built by `new_child(Move(7,7))`, `move_down()`,
`set_comment("a")` has the comment "a" at the child of the root. `save_renlib` writes
the header, the record of the child with the comment bit and the bytes `'a' 0`.
`load_renlib` of these bytes returns true, and in the decoded tree the child of the
root is at `(7,7)` but has no comment: the loop is left by `break` at the last record
before the comment is read. -/
theorem roundtrip_drops_comment_of_last_node :
    (and_then pos_move_down (commented_leaf.bind pos_goto_root)).bind get_current_comment
      = some (some [97]) ∧
    commented_leaf_file = some (Renlib_Header ++ [120, 72, 97, 0]) ∧
    commented_leaf_decoded.bind Outcome.value = some true ∧
    (and_then pos_move_down (commented_leaf_decoded.map Outcome.state)).map Tree.crec
      = some [⟨7, 7⟩] ∧
    (and_then pos_move_down (commented_leaf_decoded.map Outcome.state)).bind
      get_current_comment = some none := by
  decide

/-- C2 (failing input): after `write_recording` of `[(7,7),(7,8)]`, `[(7,7),(8,8),(9,9)]`
and `[(7,7),(8,8),(6,6)]` on an empty tree, `query` of `[(7,7),(8,8),(6,6)]` from the
root returns 2 and not 3: the node of `(6,6)` (address 5) was created below the node
of `(7,8)` (address 2) and not below the node of `(8,8)` (address 3). -/
theorem written_recording_not_found :
    value_of (query 2 [⟨7, 7⟩, ⟨8, 8⟩, ⟨6, 6⟩]) (three_lines.bind pos_goto_root) = some 2 ∧
    three_lines.map (fun s => (node_at s.heap 2).map (fun n => (n.pos, n.down)))
      = some (some (⟨7, 8⟩, some 5)) ∧
    three_lines.map (fun s => (node_at s.heap 3).map (fun n => (n.pos, n.down)))
      = some (some (⟨8, 8⟩, some 4)) ∧
    three_lines.map (fun s => (node_at s.heap 5).map Node.pos) = some (some ⟨6, 6⟩) := by
  decide

/-- C3 (failing input): in the tree `two_branches` the calls down, right, down reach
the node `(4,5)` (address 4), the child of `(4,4)` (address 2); `pos_move_up` then
puts the cursor on `(3,3)` (address 1), which is not the parent, while the recording
is `[(4,4)]`: the recording is not the path to the cursor. -/
theorem recording_differs_from_path_after_move_up :
    (two_branches.bind (navigate [Nav.down, Nav.right, Nav.down])).map
      (fun s => (s.ppos, s.crec)) = some (some 4, [⟨4, 4⟩, ⟨4, 5⟩]) ∧
    two_branches.map (fun s => (node_at s.heap 2).map (fun n => (n.pos, n.down)))
      = some (some (⟨4, 4⟩, some 4)) ∧
    value_of pos_move_up (two_branches.bind (navigate [Nav.down, Nav.right, Nav.down]))
      = some true ∧
    (two_branches.bind (navigate [Nav.down, Nav.right, Nav.down, Nav.up])).map
      (fun s => (s.ppos, s.cdepth, s.crec)) = some (some 1, 1, [⟨4, 4⟩]) ∧
    two_branches.map (fun s => (node_at s.heap 1).map Node.pos) = some (some ⟨3, 3⟩) := by
  decide

/-- C5 (failing input): in the tree `two_branches` the calls down, right, down put the
cursor on `(4,5)` (address 4, depth 2), whose parent is `(4,4)` (address 2);
`delete_current_pos` leaves the cursor on `(3,3)` (address 1), with depth 1 and the
recording `[(4,4)]`. -/
theorem delete_leaves_cursor_off_parent :
    (two_branches.bind (navigate [Nav.down, Nav.right, Nav.down])).map
      (fun s => (s.ppos, s.cdepth, s.crec, decide (s.ppos = s.proot)))
      = some (some 4, 2, [⟨4, 4⟩, ⟨4, 5⟩], false) ∧
    two_branches.map (fun s => (node_at s.heap 2).map Node.down) = some (some (some 4)) ∧
    ((two_branches.bind (navigate [Nav.down, Nav.right, Nav.down])).bind
      delete_current_pos).map (fun s => (s.ppos, s.cdepth, s.crec))
      = some (some 1, 1, [⟨4, 4⟩]) := by
  decide

/-- C6 (failing input): in the tree `two_leaves` the root (address 0) has the children
`(3,3)` (address 1) and `(4,4)` (address 2). `delete_current_pos` at the first child
destroys it and also its sibling `(4,4)`, and the `down` link of the root still holds
the address of the destroyed node. -/
theorem delete_destroys_sibling_and_leaves_link :
    two_leaves.map (fun s => (s.heap.map (Option.map (fun n => (n.pos, n.down, n.right)))))
      = some [some (⟨31, 31⟩, some 1, none), some (⟨3, 3⟩, none, some 2),
              some (⟨4, 4⟩, none, none)] ∧
    (and_then pos_move_down two_leaves).map (fun s => (s.ppos, decide (s.ppos = s.proot)))
      = some (some 1, false) ∧
    ((and_then pos_move_down two_leaves).bind delete_current_pos).map
      (fun s => (s.heap.map (Option.map (fun n => (n.pos, n.down, n.right)))))
      = some [some (⟨31, 31⟩, some 1, none), none, none] :=
  ⟨by decide, by decide, by decide⟩

/-- C8 (failing input): in the tree `two_leaves` the calls down, right put the cursor
on `(4,4)` (address 2), whose previous sibling is `(3,3)` (address 1); `pos_move_left`
returns false and leaves the cursor where it is. -/
theorem move_left_fails_at_second_child :
    (two_leaves.bind (navigate [Nav.down, Nav.right])).map (fun s => (s.ppos, s.cdepth))
      = some (some 2, 1) ∧
    two_leaves.map (fun s => (node_at s.heap 1).map Node.right) = some (some (some 2)) ∧
    value_of pos_move_right (and_then pos_move_down two_leaves) = some true ∧
    value_of pos_move_left (two_leaves.bind (navigate [Nav.down, Nav.right])) = some false ∧
    and_then pos_move_left (two_leaves.bind (navigate [Nav.down, Nav.right]))
      = two_leaves.bind (navigate [Nav.down, Nav.right]) := by
  decide

/-! ## Comments, query by move and new children -/

/-- C11: for every tree and cursor (the cursor `NULL`, or a live node whose comment
reference is valid), `set_current_comment` returns for every comment and never
shortens the comment table; and with the empty string it leaves the comment table as
it is, leaves every node other than the current one as it is (flag and index
included), and changes nothing of the current node but its has-comment flag. -/
theorem comment_table_append_only (s : Tree) (comment : List Nat)
    (hok : comment_ref_ok s = true) :
    (∃ s1, set_current_comment comment s = some s1 ∧
      s.comments.length ≤ s1.comments.length) ∧
    (∃ s1, set_current_comment [] s = some s1 ∧ s1.comments = s.comments ∧
      (∀ b, some b ≠ s.ppos → node_at s1.heap b = node_at s.heap b) ∧
      (∀ a n, s.ppos = some a → node_at s.heap a = some n →
        node_at s1.heap a = some { n with has_comment := false })) := by
  unfold comment_ref_ok at hok
  cases hp : s.ppos with
  | none =>
    refine ⟨⟨s, by simp [set_current_comment, hp], le_refl _⟩,
      ⟨s, by simp [set_current_comment, hp], rfl, fun _ _ => rfl, ?_⟩⟩
    intro a n ha; cases ha
  | some a =>
    rw [hp] at hok
    simp only at hok
    cases hn : node_at s.heap a with
    | none => rw [hn] at hok; simp at hok
    | some n =>
      rw [hn] at hok
      simp only [Bool.or_eq_true, Bool.not_eq_true', decide_eq_true_eq] at hok
      have hlt := node_at_lt hn
      have hempty : set_current_comment [] s =
          some { s with heap := s.heap.set a (some { n with has_comment := false }) } := by
        simp only [set_current_comment, hp, hn]
        simp
      constructor
      · by_cases hc : comment = []
        · subst hc
          exact ⟨_, hempty, le_refl _⟩
        · cases hhc : n.has_comment with
          | false =>
            have h1 : set_current_comment comment s =
                some { s with
                  comments := s.comments ++ [comment]
                  heap := s.heap.set a
                    (some { n with has_comment := true, tag_comment := s.comments.length }) } := by
              simp only [set_current_comment, hp, hn]
              simp [hc, hhc]
            exact ⟨_, h1, by simp⟩
          | true =>
            have htag : n.tag_comment < s.comments.length := by
              rcases hok with h | h
              · rw [hhc] at h; cases h
              · exact h
            have h1 : set_current_comment comment s =
                some { s with comments := s.comments.set n.tag_comment comment } := by
              simp only [set_current_comment, hp, hn]
              simp [hc, hhc, htag]
            exact ⟨_, h1, by simp⟩
      · refine ⟨_, hempty, rfl, ?_, ?_⟩
        · intro b hb
          simp only
          exact node_at_set_ne _ (fun h => hb (by rw [h]))
        · intro a1 n1 ha1 hn1
          simp only [Option.some.injEq] at ha1
          subst ha1
          rw [hn] at hn1
          simp only [Option.some.injEq] at hn1
          subst hn1
          exact node_at_set_eq _ hlt

/-- C11, at the tree `commented_leaf` with the cursor on the commented child and the
comment "b": the hypothesis holds and the comment table is not shortened. -/
theorem comment_table_append_only_witness :
    comment_ref_ok commented_leaf_state = true ∧
    ((∃ s1, set_current_comment [98] commented_leaf_state = some s1 ∧
      commented_leaf_state.comments.length ≤ s1.comments.length) ∧
    (∃ s1, set_current_comment [] commented_leaf_state = some s1 ∧
      s1.comments = commented_leaf_state.comments ∧
      (∀ b, some b ≠ commented_leaf_state.ppos →
        node_at s1.heap b = node_at commented_leaf_state.heap b) ∧
      (∀ a n, commented_leaf_state.ppos = some a →
        node_at commented_leaf_state.heap a = some n →
        node_at s1.heap a = some { n with has_comment := false }))) :=
  ⟨by decide, comment_table_append_only commented_leaf_state [98] (by decide)⟩

theorem commented_leaf_eq : commented_leaf = some commented_leaf_state := by decide

theorem is_chain_cons {h : List (Option Node)} {p : Option Nat} {c : Nat} {l : List Nat} :
    is_chain h p (c :: l) = true ↔
      p = some c ∧ ∃ n, node_at h c = some n ∧ is_chain h n.right l = true := by
  rw [is_chain]
  cases hn : node_at h c with
  | none => simp
  | some n => simp

theorem is_chain_nil {h : List (Option Node)} {p : Option Nat} :
    is_chain h p [] = true ↔ p = none := by
  simp [is_chain]

theorem is_chain_live {h : List (Option Node)} (l : List Nat) : ∀ p : Option Nat,
    is_chain h p l = true → ∀ c ∈ l, c < h.length := by
  induction l with
  | nil => intro p _ c hc; simp at hc
  | cons b l ih =>
    intro p hch c hc
    obtain ⟨-, n, hn, hrest⟩ := is_chain_cons.mp hch
    simp only [List.mem_cons] at hc
    rcases hc with rfl | hc
    · exact node_at_lt hn
    · exact ih _ hrest c hc

theorem is_chain_length_le {h : List (Option Node)} {l : List Nat} {p : Option Nat}
    (hch : is_chain h p l = true) (hnd : l.Nodup) : l.length ≤ h.length :=
  nodup_bounded_length hnd (is_chain_live l p hch)

/-- The scan of `query(Move)` along a sibling chain returns the first node of the chain
that holds the move. -/
theorem query_scan_chain {h : List (Option Node)} (m : Move) (l : List Nat) :
    ∀ (p : Option Nat) (fuel : Nat), is_chain h p l = true → l.length < fuel →
      query_scan h m fuel p = some (first_with_move h m l) := by
  induction l with
  | nil =>
    intro p fuel hch hfuel
    obtain ⟨f, rfl⟩ : ∃ f, fuel = f + 1 := ⟨fuel - 1, by simp at hfuel; omega⟩
    rw [is_chain_nil.mp hch]
    rfl
  | cons c l ih =>
    intro p fuel hch hfuel
    obtain ⟨hp, n, hn, hrest⟩ := is_chain_cons.mp hch
    simp only [List.length_cons] at hfuel
    obtain ⟨f, rfl⟩ : ∃ f, fuel = f + 1 := ⟨fuel - 1, by omega⟩
    rw [hp, query_scan_succ_some, hn]
    simp only [first_with_move, List.find?_cons, hn, Option.map_some']
    by_cases hm : n.pos = m
    · simp [hm]
    · simp only [hm, if_false, Option.some.injEq, decide_False]
      exact ih n.right f hrest (by omega)

/-- C12: for every cursor on a live node whose children form the chain `l` and every
move `m` (the depth counter and the path array having room for one more level):
when some child holds `m`, `query(Move)` returns the first such child in sibling
order and leaves the cursor on it, the depth increased by exactly 1, the child
entered in the path array and `m` appended to the recording; when no child holds `m`
it returns `NULL` and the whole state is unchanged. The heap is the same afterwards in
both cases. -/
theorem query_by_move (s : Tree) (m : Move) (a : Nat) (l : List Nat)
    (hpos : s.ppos = some a) (hch : children_are s.heap a l = true) (hnd : l.Nodup)
    (hcap : s.cdepth + 1 < s.seq.length) (hcap1 : s.cdepth + 1 < 65536) :
    query_Move m s =
      match first_with_move s.heap m l with
      | some c =>
        some (some c, { s with ppos := some c, cdepth := s.cdepth + 1,
                               seq := s.seq.set (s.cdepth + 1) (some c),
                               crec := s.crec ++ [m] })
      | none => some (none, s) := by
  unfold children_are at hch
  cases hn : node_at s.heap a with
  | none => rw [hn] at hch; simp at hch
  | some n =>
    rw [hn] at hch
    simp only at hch
    have hlen := is_chain_length_le hch hnd
    have hmod : (s.cdepth + 1) % 65536 = s.cdepth + 1 := Nat.mod_eq_of_lt hcap1
    cases l with
    | nil =>
      have hd := is_chain_nil.mp hch
      simp [query_Move, hpos, hn, hd, first_with_move]
    | cons c l =>
      obtain ⟨hd, -⟩ := is_chain_cons.mp hch
      have hscan := query_scan_chain m (c :: l) n.down (s.heap.length + 1) hch (by omega)
      rw [hd] at hscan
      simp only [query_Move, hpos, hn, hd, hscan, hmod]
      cases first_with_move s.heap m (c :: l) with
      | none => rfl
      | some p => simp [hcap, Recording.domove]

/-- C12, at the root of `two_branches` (children at addresses 1 and 2) and the move
`(4,4)` of the second child: the hypotheses hold and the second child is returned. -/
theorem query_by_move_witness :
    two_branches_state.ppos = some 0 ∧
    children_are two_branches_state.heap 0 [1, 2] = true ∧
    [1, 2].Nodup ∧
    two_branches_state.cdepth + 1 < two_branches_state.seq.length ∧
    two_branches_state.cdepth + 1 < 65536 ∧
    first_with_move two_branches_state.heap ⟨4, 4⟩ [1, 2] = some 2 ∧
    query_Move ⟨4, 4⟩ two_branches_state =
      match first_with_move two_branches_state.heap ⟨4, 4⟩ [1, 2] with
      | some c =>
        some (some c, { two_branches_state with
                          ppos := some c, cdepth := two_branches_state.cdepth + 1,
                          seq := two_branches_state.seq.set (two_branches_state.cdepth + 1)
                            (some c),
                          crec := two_branches_state.crec ++ [⟨4, 4⟩] })
      | none => some (none, two_branches_state) :=
  ⟨by decide, by decide, by decide, by decide, by decide, by decide,
   query_by_move two_branches_state ⟨4, 4⟩ 0 [1, 2]
     (by decide) (by decide) (by decide) (by decide) (by decide)⟩

theorem last_sibling_succ (h : List (Option Node)) (fuel p : Nat) :
    last_sibling h (fuel + 1) p =
      match node_at h p with
      | none => none
      | some n =>
        match n.right with
        | none => some p
        | some r => last_sibling h fuel r := rfl

/-- The loop of `new_descendent` stops at the last node of the sibling chain. -/
theorem last_sibling_chain {h : List (Option Node)} (l : List Nat) :
    ∀ (c fuel : Nat), is_chain h (some c) (c :: l) = true → l.length < fuel →
      last_sibling h fuel c = some ((c :: l).getLast (List.cons_ne_nil c l)) := by
  induction l with
  | nil =>
    intro c fuel hch hfuel
    obtain ⟨-, n, hn, hrest⟩ := is_chain_cons.mp hch
    obtain ⟨f, rfl⟩ : ∃ f, fuel = f + 1 := ⟨fuel - 1, by simp at hfuel; omega⟩
    rw [last_sibling_succ, hn]
    simp only
    rw [is_chain_nil.mp hrest]
    rfl
  | cons c1 l ih =>
    intro c fuel hch hfuel
    obtain ⟨-, n, hn, hrest⟩ := is_chain_cons.mp hch
    have hr := (is_chain_cons.mp hrest).1
    simp only [List.length_cons] at hfuel
    obtain ⟨f, rfl⟩ : ∃ f, fuel = f + 1 := ⟨fuel - 1, by omega⟩
    rw [last_sibling_succ, hn]
    simp only
    rw [hr]
    simp only
    rw [hr] at hrest
    rw [ih c1 f hrest (by omega)]
    rfl

/-- A chain whose last node gets the new node `q` as its next sibling is the chain
with `q` appended. -/
theorem is_chain_extend {h h2 : List (Option Node)} (q : Nat) (nq : Node)
    (hq : node_at h2 q = some nq) (hqr : nq.right = none) (l : List Nat) :
    ∀ (c : Nat), is_chain h (some c) (c :: l) = true → (c :: l).Nodup →
      (∀ b ∈ c :: l, b ≠ (c :: l).getLast (List.cons_ne_nil c l) →
        node_at h2 b = node_at h b) →
      (∀ np, node_at h ((c :: l).getLast (List.cons_ne_nil c l)) = some np →
        node_at h2 ((c :: l).getLast (List.cons_ne_nil c l))
          = some { np with right := some q }) →
      is_chain h2 (some c) (c :: l ++ [q]) = true := by
  induction l with
  | nil =>
    intro c hch _ _ hlast
    obtain ⟨-, n, hn, hrest⟩ := is_chain_cons.mp hch
    have h2c := hlast n hn
    simp only [List.getLast_singleton] at h2c
    refine is_chain_cons.mpr ⟨rfl, _, h2c, ?_⟩
    exact is_chain_cons.mpr ⟨rfl, nq, hq, by rw [hqr]; rfl⟩
  | cons c1 l ih =>
    intro c hch hnd hsame hlast
    obtain ⟨-, n, hn, hrest⟩ := is_chain_cons.mp hch
    have hr := (is_chain_cons.mp hrest).1
    have hlast_eq : (c :: c1 :: l).getLast (List.cons_ne_nil c (c1 :: l)) =
        (c1 :: l).getLast (List.cons_ne_nil c1 l) := rfl
    have hc_ne : c ≠ (c1 :: l).getLast (List.cons_ne_nil c1 l) := by
      intro he
      have hmem := List.getLast_mem (List.cons_ne_nil c1 l)
      rw [← he] at hmem
      exact (List.nodup_cons.mp hnd).1 hmem
    have h2c : node_at h2 c = some n := by
      rw [hsame c (by simp) (by rw [hlast_eq]; exact hc_ne), hn]
    refine is_chain_cons.mpr ⟨rfl, n, h2c, ?_⟩
    rw [hr]
    rw [hr] at hrest
    apply ih c1 hrest (List.nodup_cons.mp hnd).2
    · intro b hb hne
      exact hsame b (List.mem_cons_of_mem _ hb) (by rw [hlast_eq]; exact hne)
    · intro np hnp
      exact hlast np hnp

theorem degree_loop_succ_none (h : List (Option Node)) (fuel cnt : Nat) :
    degree_loop h (fuel + 1) none cnt = some cnt := rfl

theorem degree_loop_succ_some (h : List (Option Node)) (fuel a cnt : Nat) :
    degree_loop h (fuel + 1) (some a) cnt =
      match node_at h a with
      | none => none
      | some n => degree_loop h fuel n.right ((cnt + 1) % 65536) := rfl

/-- The counting loop of `current_degree` counts the nodes of the chain. -/
theorem degree_loop_chain {h : List (Option Node)} (l : List Nat) :
    ∀ (p : Option Nat) (fuel cnt : Nat), is_chain h p l = true → l.length < fuel →
      cnt + l.length < 65536 → degree_loop h fuel p cnt = some (cnt + l.length) := by
  induction l with
  | nil =>
    intro p fuel cnt hch hfuel _
    obtain ⟨f, rfl⟩ : ∃ f, fuel = f + 1 := ⟨fuel - 1, by simp at hfuel; omega⟩
    rw [is_chain_nil.mp hch]
    rfl
  | cons c l ih =>
    intro p fuel cnt hch hfuel hcnt
    obtain ⟨hp, n, hn, hrest⟩ := is_chain_cons.mp hch
    simp only [List.length_cons] at hfuel hcnt
    obtain ⟨f, rfl⟩ : ∃ f, fuel = f + 1 := ⟨fuel - 1, by omega⟩
    rw [hp, degree_loop_succ_some, hn]
    simp only
    rw [Nat.mod_eq_of_lt (by omega), ih n.right f (cnt + 1) hrest (by omega) (by omega)]
    simp only [List.length_cons]
    congr 1
    omega

theorem current_degree_chain {s : Tree} {a : Nat} {l : List Nat} (hpos : s.ppos = some a)
    (hch : children_are s.heap a l = true) (hfuel : l.length ≤ s.heap.length)
    (hdeg : l.length < 65536) : current_degree s = some l.length := by
  unfold children_are at hch
  cases hn : node_at s.heap a with
  | none => rw [hn] at hch; simp at hch
  | some n =>
    rw [hn] at hch
    simp only at hch
    cases l with
    | nil =>
      have hd := is_chain_nil.mp hch
      simp [current_degree, hpos, hn, hd]
    | cons c l =>
      obtain ⟨hd, -⟩ := is_chain_cons.mp hch
      have := degree_loop_chain (c :: l) n.down (s.heap.length + 1) 0 hch (by omega)
        (by omega)
      rw [hd] at this
      simp only [current_degree, hpos, hn, hd, this]
      simp


theorem is_chain_last {h : List (Option Node)} (l : List Nat) :
    ∀ (c : Nat), is_chain h (some c) (c :: l) = true →
      ∃ np, node_at h ((c :: l).getLast (List.cons_ne_nil c l)) = some np ∧
        np.right = none := by
  induction l with
  | nil =>
    intro c hch
    obtain ⟨-, n, hn, hrest⟩ := is_chain_cons.mp hch
    exact ⟨n, hn, is_chain_nil.mp hrest⟩
  | cons c1 l ih =>
    intro c hch
    obtain ⟨-, n, hn, hrest⟩ := is_chain_cons.mp hch
    have hr := (is_chain_cons.mp hrest).1
    rw [hr] at hrest
    exact ih c1 hrest

/-- The heap after `new_descendent(Move)`: the new cell `q`, one link set in the cell
`x`, the move written into the new cell. -/
theorem node_at_new_cell (h : List (Option Node)) (x : Nat) (v : Node) (nq : Node)
    (hx : x < h.length) :
    node_at (((h ++ [some Node.fresh]).set x (some v)).set h.length (some nq)) h.length
        = some nq ∧
    node_at (((h ++ [some Node.fresh]).set x (some v)).set h.length (some nq)) x = some v ∧
    (∀ b, b ≠ x → b < h.length →
      node_at (((h ++ [some Node.fresh]).set x (some v)).set h.length (some nq)) b
        = node_at h b) ∧
    node_at ((h ++ [some Node.fresh]).set x (some v)) h.length = some Node.fresh := by
  refine ⟨?_, ?_, ?_, ?_⟩
  · exact node_at_set_eq _ (by simp)
  · rw [node_at_set_ne _ (by omega)]
    exact node_at_set_eq _ (by simp; omega)
  · intro b hbx hb
    rw [node_at_set_ne _ (by omega), node_at_set_ne _ (Ne.symm hbx),
      node_at_append_left _ hb]
  · rw [node_at_set_ne _ (by omega)]
    exact node_at_append_new _ _

/-- C13: for every cursor on a live node `a` whose children form the chain `l` (fewer
than 65535 of them), `new_descendent(Move m)` returns a new node: afterwards the
children of `a` are the former ones followed by the new node, the new node holds `m`
and has no child, no sibling, no marks and no comment, `current_degree` has grown by
exactly 1, and the cursor position, the depth, the path, the recording and the
comment table are unchanged. -/
theorem new_child_appended (s : Tree) (m : Move) (a : Nat) (l : List Nat)
    (hpos : s.ppos = some a) (hch : children_are s.heap a l = true) (hnd : l.Nodup)
    (ha : a ∉ l) (hdeg : l.length + 1 < 65536) :
    ∃ s1, new_descendent_at m s = some (some s.heap.length, s1) ∧
      children_are s1.heap a (l ++ [s.heap.length]) = true ∧
      node_at s1.heap s.heap.length = some ⟨m, false, false, false, 0, none, none⟩ ∧
      current_degree s = some l.length ∧
      current_degree s1 = some (l.length + 1) ∧
      s1.ppos = s.ppos ∧ s1.cdepth = s.cdepth ∧ s1.crec = s.crec ∧ s1.seq = s.seq ∧
      s1.proot = s.proot ∧ s1.comments = s.comments := by
  have hch0 := hch
  unfold children_are at hch
  cases hn : node_at s.heap a with
  | none => rw [hn] at hch; simp at hch
  | some n =>
    rw [hn] at hch
    simp only at hch
    have hlen := is_chain_length_le hch hnd
    have halt := node_at_lt hn
    have hdeg0 : current_degree s = some l.length :=
      current_degree_chain hpos hch0 hlen (by omega)
    cases l with
    | nil =>
      have hd := is_chain_nil.mp hch
      obtain ⟨hq, hx, hsame, hfresh⟩ := node_at_new_cell s.heap a { n with down := some s.heap.length }
        ⟨m, false, false, false, 0, none, none⟩ halt
      have hchild : children_are
          (((s.heap ++ [some Node.fresh]).set a (some { n with down := some s.heap.length })).set
            s.heap.length (some ⟨m, false, false, false, 0, none, none⟩)) a
          ([] ++ [s.heap.length]) = true := by
        unfold children_are
        rw [hx]
        exact is_chain_cons.mpr ⟨rfl, _, hq, rfl⟩
      refine ⟨{ s with heap := _ }, ?_, hchild, hq, hdeg0, ?_,
        rfl, rfl, rfl, rfl, rfl, rfl⟩
      · simp only [new_descendent_at, new_descendent, hpos, hn, hd, alloc, hfresh]
        rfl
      · refine Eq.trans (current_degree_chain (s := { s with heap := _ }) hpos hchild ?_ ?_) ?_
        · simp
        · simp
        · simp
    | cons c l =>
      obtain ⟨hd, -⟩ := is_chain_cons.mp hch
      rw [hd] at hch
      obtain ⟨np, hnp, hnpr⟩ := is_chain_last l c hch
      have hplt := node_at_lt hnp
      have hpmem : (c :: l).getLast (List.cons_ne_nil c l) ∈ c :: l := List.getLast_mem _
      have hpa : (c :: l).getLast (List.cons_ne_nil c l) ≠ a := by
        intro he; rw [he] at hpmem; exact ha hpmem
      have hlast := last_sibling_chain l c (s.heap.length + 1) hch (by
        simp only [List.length_cons] at hlen; omega)
      obtain ⟨hq, hx, hsame, hfresh⟩ := node_at_new_cell s.heap
        ((c :: l).getLast (List.cons_ne_nil c l)) { np with right := some s.heap.length }
        ⟨m, false, false, false, 0, none, none⟩ hplt
      have hchild : children_are
          (((s.heap ++ [some Node.fresh]).set ((c :: l).getLast (List.cons_ne_nil c l))
            (some { np with right := some s.heap.length })).set
            s.heap.length (some ⟨m, false, false, false, 0, none, none⟩)) a
          (c :: l ++ [s.heap.length]) = true := by
        unfold children_are
        rw [hsame a (Ne.symm hpa) halt, hn]
        simp only
        rw [hd]
        apply is_chain_extend s.heap.length _ hq rfl l c hch hnd
        · intro b hb hne
          exact hsame b hne (is_chain_live _ _ hch b hb)
        · intro np1 hnp1
          rw [hnp] at hnp1
          simp only [Option.some.injEq] at hnp1
          subst hnp1
          exact hx
      refine ⟨{ s with heap := _ }, ?_, hchild, hq, hdeg0, ?_,
        rfl, rfl, rfl, rfl, rfl, rfl⟩
      · simp only [new_descendent_at, new_descendent, hpos, hn, hd, alloc, hlast, hnp, hfresh]
        rfl
      · have hlen1 : (c :: l ++ [s.heap.length]).length ≤ s.heap.length + 1 := by
          simp only [List.length_cons] at hlen
          simp only [List.length_append, List.length_cons, List.length_singleton,
            List.length_nil]
          omega
        have hdeg1 : (c :: l ++ [s.heap.length]).length < 65536 := by
          simp only [List.length_append, List.length_cons, List.length_singleton,
            List.length_nil]
          simpa using hdeg
        refine Eq.trans (current_degree_chain (s := { s with heap := _ }) hpos hchild ?_ hdeg1) ?_
        · simpa using hlen1
        · simp

/-- C13, at the root of `two_branches` (children at addresses 1 and 2) and the move
`(5,5)`: the hypotheses hold and the new node (address 5) is the third child. -/
theorem new_child_appended_witness :
    two_branches_state.ppos = some 0 ∧
    children_are two_branches_state.heap 0 [1, 2] = true ∧
    [1, 2].Nodup ∧ 0 ∉ [1, 2] ∧ [1, 2].length + 1 < 65536 ∧
    ∃ s1, new_descendent_at ⟨5, 5⟩ two_branches_state
        = some (some two_branches_state.heap.length, s1) ∧
      children_are s1.heap 0 ([1, 2] ++ [two_branches_state.heap.length]) = true ∧
      node_at s1.heap two_branches_state.heap.length
        = some ⟨⟨5, 5⟩, false, false, false, 0, none, none⟩ ∧
      current_degree two_branches_state = some [1, 2].length ∧
      current_degree s1 = some ([1, 2].length + 1) ∧
      s1.ppos = two_branches_state.ppos ∧ s1.cdepth = two_branches_state.cdepth ∧
      s1.crec = two_branches_state.crec ∧ s1.seq = two_branches_state.seq ∧
      s1.proot = two_branches_state.proot ∧ s1.comments = two_branches_state.comments :=
  ⟨by decide, by decide, by decide, by decide, by decide,
   new_child_appended two_branches_state ⟨5, 5⟩ 0 [1, 2]
     (by decide) (by decide) (by decide) (by decide) (by decide)⟩

/-! ## Behaviour at concrete inputs, continued -/

/-- C16 (failing input): in the tree `two_lines` sibling moves are pairwise distinct.
`query` of `[(7,7),(8,8),(6,6)]` from the root returns 2, the length of the longest
stored prefix, but the cursor is left on `(7,8)` (address 2), the first sibling, and
not on `(8,8)` (address 3), the node reached by following `[(7,7),(8,8)]`; the depth is
2 and the recording is `[(7,7),(8,8)]`. -/
theorem direct_match_leaves_cursor_on_first_sibling :
    two_lines.map (fun s => heap_links s.heap)
      = some [some (⟨31, 31⟩, some 1, none), some (⟨7, 7⟩, some 2, none),
              some (⟨7, 8⟩, none, some 3), some (⟨8, 8⟩, some 4, none),
              some (⟨9, 9⟩, none, none)] ∧
    value_of (query 2 [⟨7, 7⟩, ⟨8, 8⟩, ⟨6, 6⟩]) (two_lines.bind pos_goto_root) = some 2 ∧
    (and_then (query 2 [⟨7, 7⟩, ⟨8, 8⟩, ⟨6, 6⟩]) (two_lines.bind pos_goto_root)).map
      (fun s => (s.ppos, s.cdepth, s.crec)) = some (some 2, 2, [⟨7, 7⟩, ⟨8, 8⟩]) :=
  ⟨by decide, by decide, by decide⟩

/-- C17 (failing input): in the tree holding the line `[(1,2)]`, with the cursor on the
node `(1,2)`, `query` of `[(2,1)]` runs the symmetry search: of the 8 transforms only
transform 6 maps the recording to a stored line, and `query` returns its match length
1; the rotation tag is 0 when `query` returns. -/
theorem rotation_tag_cleared_after_symmetry_search :
    (and_then pos_move_down one_line).map (fun s => (s.ppos, decide (s.ppos = s.proot)))
      = some (some 1, false) ∧
    (List.range 8).map
      (fun r => value_of (query 2 (Recording.board_rotate 15 r false [⟨2, 1⟩])) one_line)
      = [some 0, some 0, some 0, some 0, some 0, some 0, some 1, some 0] ∧
    value_of (query 2 [⟨2, 1⟩]) (and_then pos_move_down one_line) = some 1 ∧
    (and_then (query 2 [⟨2, 1⟩]) (and_then pos_move_down one_line)).map query_rotate_tag
      = some 0 :=
  ⟨by decide, by decide, by decide, by decide⟩

/-- C18 (failing input): the record of `commented_last_file` has the `comment` bit and is
followed by the string "a"; `load_renlib` returns true, the comment table stays empty
and the node `(7,7)` (address 3) has no comment. In `commented_first_file` the same
record is not the last one, and its comment is stored. -/
theorem comment_of_last_record_not_stored :
    (Renlib_Node.read commented_last_file 20).map (fun r => (r.comment, r.is_leaf))
      = some (true, true) ∧
    (load_renlib commented_last_file empty_tree_state).bind Outcome.value = some true ∧
    (load_renlib commented_last_file empty_tree_state).map
      (fun o => (o.state.comments, (node_at o.state.heap 3).map
        (fun n => (n.pos, n.has_comment)))) = some ([], some (⟨7, 7⟩, false)) ∧
    (load_renlib commented_first_file empty_tree_state).map
      (fun o => (o.state.comments, (node_at o.state.heap 3).map
        (fun n => (n.pos, n.has_comment, n.tag_comment))))
      = some ([[97]], some (⟨7, 7⟩, true, 0)) :=
  ⟨by decide, by decide, by decide, by decide⟩

/-- C19 (failing input): the first record of `zero_row_file` has `x = 5` and `y = 0`;
`load_renlib` returns true and the decoded tree is the root (address 2) with the
single child `(5,8)` (address 3), the move of the second record: the first record was
skipped and its move `(4,14)` is not in the tree. -/
theorem first_record_with_zero_row_skipped :
    (Renlib_Node.read zero_row_file 20).map (fun r => (r.x, r.y)) = some (5, 0) ∧
    (Renlib_Node.read zero_row_file 22).map (fun r => (r.x, r.y)) = some (6, 6) ∧
    (load_renlib zero_row_file empty_tree_state).bind Outcome.value = some true ∧
    (load_renlib zero_row_file empty_tree_state).map (fun o => o.state.proot)
      = some (some 2) ∧
    (load_renlib zero_row_file empty_tree_state).map (fun o => heap_links o.state.heap)
      = some [none, some (⟨31, 31⟩, none, none), some (⟨31, 31⟩, some 3, none),
              some (⟨5, 8⟩, none, none), none] :=
  ⟨by decide, by decide, by decide, by decide, by decide⟩

/-- C14 (counterexample): decoding `center_file` (record `x = 8, y = 8`, leaf, no
sibling, no comment) into the empty tree returns true, and the single child of the
root is at the internal coordinate `(7,6)`, not `(7,7)`. -/
theorem center_record_decodes_to_7_6 :
    (Renlib_Node.read center_file 20).map
      (fun r => (r.x, r.y, r.is_leaf, r.has_sibling, r.comment))
      = some (8, 8, true, false, false) ∧
    (load_renlib center_file empty_tree_state).bind Outcome.value = some true ∧
    (load_renlib center_file empty_tree_state).map (fun o => o.state.proot)
      = some (some 2) ∧
    (load_renlib center_file empty_tree_state).map (fun o => heap_links o.state.heap)
      = some [none, some (⟨31, 31⟩, none, none), some (⟨31, 31⟩, some 3, none),
              some (⟨7, 6⟩, none, none), none] ∧
    (⟨7, 6⟩ : Move) ≠ ⟨7, 7⟩ :=
  ⟨by decide, by decide, by decide, by decide, by decide⟩

/-! ## Decoding the centre record -/

/-- The state `delete_current_pos` leaves when the cursor is at the true root of a pure
tree. -/
theorem delete_current_pos_root {s : Tree} {t : LT} (hshape : TreeShape s t)
    (hpos : s.ppos = s.proot) (hseq : 0 < s.seq.length) :
    delete_current_pos s =
      some { s with heap := free_all s.heap t.addrs ++ [some Node.fresh],
                    proot := some s.heap.length, ppos := some s.heap.length, cdepth := 0,
                    seq := s.seq.set 0 (some s.heap.length), crec := [], tag_rotate := 0 } := by
  obtain ⟨hroot, hm, hnd, hrt⟩ := hshape
  obtain ⟨a, d, rfl⟩ := rooted_eq hrt
  have hproot : s.proot = some a := by rw [hroot]; rfl
  have hppos : s.ppos = some a := by rw [hpos, hproot]
  have hcost : (LT.node a d LT.nil).cost ≤ 2 * s.heap.length + 1 := by
    have h1 := cost_le (LT.node a d LT.nil)
    have h2 := models_size_le hm hnd
    omega
  have hloop : delete_loop (2 * s.heap.length + 1) s.heap a [] =
      some (free_all s.heap (LT.node a d LT.nil).addrs) := by
    have hfuel : 2 * s.heap.length + 1 =
        (2 * s.heap.length + 1 - (LT.node a d LT.nil).cost) + (LT.node a d LT.nil).cost := by
      omega
    rw [hfuel, delete_loop_shape (LT.node a d LT.nil) s.heap a [] _ rfl hm hnd]
  have hlen : (free_all s.heap (LT.node a d LT.nil).addrs).length = s.heap.length :=
    length_free_all _ _
  simp only [delete_current_pos, hppos, hloop, alloc, pos_goto_root, hlen]
  simp [hproot, hseq]

theorem center_file_length : center_file.length = 22 := by decide

theorem center_file_record :
    Renlib_Node.read center_file 20 =
      some { x := 8, y := 8, extension := false, no_move := false, start := false,
             comment := false, mark := false, old_comment := false, is_leaf := true,
             has_sibling := false } := by decide

/-- The decoding loop on `center_file`, started at the working node `w` that is a new
node and the last cell but one of the heap. -/
theorem load_loop_center (h : List (Option Node)) (comments : List (List Nat)) (w : Nat)
    (hw : node_at (h ++ [some Node.fresh]) w = some Node.fresh) :
    load_loop center_file (center_file.length + 1) h comments w [] 20 none =
      some ⟨(h ++ [some Node.fresh]).set w (some { Node.fresh with pos := ⟨7, 6⟩ }),
            comments, w, some h.length⟩ := by
  rw [load_loop_succ, if_pos (by rw [center_file_length]; decide), center_file_record]
  simp only [hw]
  simp [link_next, Move.coord, Node.fresh]


/-- The heap `load_renlib` builds from `center_file` on top of the heap `h` left by the
deletion of the prior tree: the new root, its working child and the cell of the node
that was allocated for the next record and deleted again. -/
theorem center_heap_cells (h : List (Option Node)) (v : Node) :
    node_at ((((h ++ [some Node.fresh] ++ [some Node.fresh]).set h.length
        (some { Node.fresh with down := some (h.length + 1) }) ++ [some Node.fresh]).set
        (h.length + 1) (some v)).set (h.length + 2) none) h.length
      = some { Node.fresh with down := some (h.length + 1) } ∧
    node_at ((((h ++ [some Node.fresh] ++ [some Node.fresh]).set h.length
        (some { Node.fresh with down := some (h.length + 1) }) ++ [some Node.fresh]).set
        (h.length + 1) (some v)).set (h.length + 2) none) (h.length + 1) = some v ∧
    ∀ b, b < h.length →
      node_at ((((h ++ [some Node.fresh] ++ [some Node.fresh]).set h.length
        (some { Node.fresh with down := some (h.length + 1) }) ++ [some Node.fresh]).set
        (h.length + 1) (some v)).set (h.length + 2) none) b = node_at h b := by
  refine ⟨?_, ?_, ?_⟩
  · rw [node_at_set_ne _ (by omega), node_at_set_ne _ (by omega),
      node_at_append_left _ (by simp)]
    exact node_at_set_eq _ (by simp)
  · rw [node_at_set_ne _ (by omega)]
    exact node_at_set_eq _ (by simp)
  · intro b hb
    rw [node_at_set_ne _ (by omega), node_at_set_ne _ (by omega),
      node_at_append_left _ (by simp; omega), node_at_set_ne _ (by omega),
      node_at_append_left _ (by simp; omega), node_at_append_left _ hb]

/-- The part of `load_renlib` on `center_file` that follows the deletion of the prior
tree. -/
theorem load_renlib_center_file {s sa s2 : Tree} (hbs : s.board_size = 15)
    (hsa : pos_goto_root s = some sa) (hdel : delete_current_pos sa = some s2)
    (hc : s2.cdepth = 0) (hseq : 1 < s2.seq.length) :
    load_renlib center_file s =
      some (Outcome.returned true
        { s2 with
            heap := (((s2.heap ++ [some Node.fresh] ++ [some Node.fresh]).set s2.heap.length
              (some { Node.fresh with down := some (s2.heap.length + 1) })
              ++ [some Node.fresh]).set (s2.heap.length + 1)
              (some { Node.fresh with pos := ⟨7, 6⟩ })).set (s2.heap.length + 2) none
            proot := some s2.heap.length
            ppos := some s2.heap.length
            cdepth := 0
            seq := (s2.seq.set 1 (some (s2.heap.length + 1))).set 0 (some s2.heap.length)
            crec := []
            tag_rotate := 0 }) := by
  have hmagic : is_renlib_file center_file = true := by decide
  have hb0 : center_file[20]? = some 136 := by decide
  have hL : s2.heap.length < (s2.heap ++ [some Node.fresh] ++ [some Node.fresh]).length := by
    simp
  have hroot4 : node_at ((s2.heap ++ [some Node.fresh] ++ [some Node.fresh]).set
      s2.heap.length (some { Node.fresh with down := some (s2.heap.length + 1) }))
      s2.heap.length = some { Node.fresh with down := some (s2.heap.length + 1) } :=
    node_at_set_eq _ hL
  have hw4 : node_at ((s2.heap ++ [some Node.fresh] ++ [some Node.fresh]).set
      s2.heap.length (some { Node.fresh with down := some (s2.heap.length + 1) }))
      (s2.heap.length + 1) = some Node.fresh := by
    rw [node_at_set_ne _ (by omega)]
    have := node_at_append_new (s2.heap ++ [some Node.fresh]) (some Node.fresh)
    simpa using this
  have hw5 : node_at ((s2.heap ++ [some Node.fresh] ++ [some Node.fresh]).set
      s2.heap.length (some { Node.fresh with down := some (s2.heap.length + 1) })
      ++ [some Node.fresh]) (s2.heap.length + 1) = some Node.fresh := by
    rw [node_at_append_left _ (by simp), hw4]
  have hloop := load_loop_center _ s2.comments (s2.heap.length + 1) hw5
  have hlen4 : ((s2.heap ++ [some Node.fresh] ++ [some Node.fresh]).set
      s2.heap.length (some { Node.fresh with down := some (s2.heap.length + 1) })).length
      = s2.heap.length + 2 := by simp
  rw [hlen4] at hloop
  unfold load_renlib
  rw [if_neg (by simp [hbs]), hmagic]
  simp only [Bool.not_true, Bool.false_eq_true, if_false, hsa, hdel, alloc]
  rw [new_descendent_at_new_root]
  simp only [pos_move_down, hroot4, hw4, hc]
  rw [if_pos (by simpa using hseq)]
  simp only [hb0]
  rw [if_neg (by decide)]
  simp only at hloop
  rw [hloop]
  simp only [pos_goto_root]
  rw [if_pos (by omega), if_pos (by simp; omega)]


/-- C14 (amended): decoding the 20-byte header followed by the single record `x = 8,
y = 8` with `is_leaf` set, `has_sibling` and `comment` clear, into any 15x15 tree that
is a pure tree, returns true; the prior nodes are destroyed, the new root has exactly
one child, that child is at the internal coordinate `(7,6)` (`x = 8 - 1`,
`y = 15 - 8 - 1`) and has no marks, no comment, no child and no sibling, and the
cursor is at the true root with depth 0 and an empty recording. -/
theorem center_record_decoded (s : Tree) (t : LT) (hshape : TreeShape s t)
    (hbs : s.board_size = 15) (hseq : 1 < s.seq.length) :
    ∃ s1, load_renlib center_file s = some (Outcome.returned true s1) ∧
      s1.proot = some (s.heap.length + 1) ∧
      node_at s1.heap (s.heap.length + 1)
        = some ⟨Move.null_position, false, false, false, 0, some (s.heap.length + 2), none⟩ ∧
      node_at s1.heap (s.heap.length + 2)
        = some ⟨⟨7, 6⟩, false, false, false, 0, none, none⟩ ∧
      (∀ a ∈ t.addrs, node_at s1.heap a = none) ∧
      s1.ppos = s1.proot ∧ s1.cdepth = 0 ∧ s1.crec = [] ∧ s1.comments = s.comments := by
  have hseq0 : 0 < s.seq.length := by omega
  have hsa : pos_goto_root s =
      some { s with
        ppos := s.proot
        cdepth := 0
        seq := s.seq.set 0 s.proot
        crec := []
        tag_rotate := 0 } := by
    simp only [pos_goto_root, hseq0, if_true]
  have hdel := delete_current_pos_root
    (s := { s with
        ppos := s.proot
        cdepth := 0
        seq := s.seq.set 0 s.proot
        crec := []
        tag_rotate := 0 }) (t := t) hshape rfl (by simpa using hseq0)
  have hload := load_renlib_center_file hbs hsa hdel rfl (by simpa using hseq)
  have hlenF : (free_all s.heap t.addrs ++ [some Node.fresh]).length = s.heap.length + 1 := by
    simp [length_free_all]
  obtain ⟨hc1, hc2, hc3⟩ := center_heap_cells (free_all s.heap t.addrs ++ [some Node.fresh])
    { Node.fresh with pos := ⟨7, 6⟩ }
  rw [hlenF] at hc1 hc2 hc3
  refine ⟨_, hload, ?_, ?_, ?_, ?_, rfl, rfl, rfl, rfl⟩
  · simp only [hlenF]
  · simp only [hlenF]
    exact hc1
  · simp only [hlenF]
    exact hc2
  · intro a ha
    have halt : a < s.heap.length := by
      obtain ⟨n, hn⟩ := models_addrs_live t hshape.2.1 a ha
      exact node_at_lt hn
    simp only [hlenF]
    rw [hc3 a (by omega), node_at_append_left _ (by rw [length_free_all]; exact halt)]
    exact node_at_free_all_of_mem _ _ _ ha

/-- C14 (amended), decoding `center_file` into the tree `two_branches`: the hypotheses
hold, the decoding returns true and the single child of the new root is at `(7,6)`. -/
theorem center_record_decoded_witness :
    TreeShape two_branches_state two_branches_shape ∧
    two_branches_state.board_size = 15 ∧ 1 < two_branches_state.seq.length ∧
    ∃ s1, load_renlib center_file two_branches_state = some (Outcome.returned true s1) ∧
      s1.proot = some (two_branches_state.heap.length + 1) ∧
      node_at s1.heap (two_branches_state.heap.length + 1)
        = some ⟨Move.null_position, false, false, false, 0,
                some (two_branches_state.heap.length + 2), none⟩ ∧
      node_at s1.heap (two_branches_state.heap.length + 2)
        = some ⟨⟨7, 6⟩, false, false, false, 0, none, none⟩ ∧
      (∀ a ∈ two_branches_shape.addrs, node_at s1.heap a = none) ∧
      s1.ppos = s1.proot ∧ s1.cdepth = 0 ∧ s1.crec = [] ∧
      s1.comments = two_branches_state.comments :=
  ⟨by decide, by decide, by decide,
   center_record_decoded two_branches_state two_branches_shape
     (by decide) (by decide) (by decide)⟩

/-! ## The encoding walk -/

theorem spec_encode_append (h : List (Option Node)) (comments : List (List Nat))
    (l1 l2 : List Nat) :
    spec_encode h comments (l1 ++ l2) = spec_encode h comments l1 ++ spec_encode h comments l2 := by
  induction l1 with
  | nil => rfl
  | cons a l ih =>
    rw [List.cons_append]
    simp only [spec_encode]
    rw [ih, List.append_assoc]

/-- For a node on the board the record `save_renlib` writes is the prescribed one. -/
theorem save_record_eq_spec (n : Node)
    (hb : n.pos.position_null = true ∨ (n.pos.x < 15 ∧ n.pos.y < 15)) :
    save_record n = spec_record n := by
  rcases n with ⟨pos, mk, ms, hc, tc, dn, rt⟩
  simp only at hb
  unfold save_record spec_record
  simp only
  cases hnull : pos.position_null with
  | true => simp
  | false =>
    rw [hnull] at hb
    have hx : pos.x < 15 := by rcases hb with h | h; cases h; exact h.1
    have hy : pos.y < 15 := by rcases hb with h | h; cases h; exact h.2
    have e1 : (pos.x + 1) % 16 = pos.x + 1 := Nat.mod_eq_of_lt (by omega)
    have e2 : ((15 - ((pos.y : Int) + 1)) % 16).toNat = 15 - (pos.y + 1) := by omega
    have e3 : (15 - (pos.y + 1)) % 16 = 15 - (pos.y + 1) := Nat.mod_eq_of_lt (by omega)
    cases dn <;> cases rt <;> cases mk <;> cases ms <;> cases hc <;>
      simp [Renlib_Node.bytes, e1, e2, e3, bne] <;> omega

theorem save_loop_succ (h : List (Option Node)) (comments : List (List Nat)) (fuel : Nat)
    (ppos : Option Nat) (st out : List Nat) :
    save_loop h comments (fuel + 1) ppos st out =
      match deref h ppos with
      | none => none
      | some n =>
        match (if n.has_comment then
                 (comments[n.tag_comment]?).map (fun cmt => out ++ save_record n ++ cmt ++ [0])
               else some (out ++ save_record n)) with
        | none => none
        | some out1 =>
          match n.down with
          | none =>
            match (if n.right ≠ none then ppos.toList ++ st else st) with
            | [] => some out1
            | top :: rest =>
              match node_at h top with
              | none => none
              | some nt => save_loop h comments fuel nt.right rest out1
          | some c =>
            save_loop h comments fuel (some c) (if n.right ≠ none then ppos.toList ++ st else st)
              out1 := rfl


theorem nodes_ok_node {h : List (Option Node)} {comments : List (List Nat)} {a : Nat}
    {d r : LT} (hok : nodes_ok h comments (LT.node a d r).addrs = true) :
    nodes_ok h comments d.addrs = true ∧ nodes_ok h comments r.addrs = true ∧
      ∀ n, node_at h a = some n →
        (n.pos.position_null = true ∨ (n.pos.x < 15 ∧ n.pos.y < 15)) ∧
        (n.has_comment = true → n.tag_comment < comments.length) := by
  simp only [nodes_ok, LT.addrs, List.all_append, List.all_cons, Bool.and_eq_true] at hok
  refine ⟨hok.1, hok.2.2, ?_⟩
  intro n hn
  have h1 := hok.2.1
  rw [hn] at h1
  simp only [Bool.and_eq_true, Bool.or_eq_true, decide_eq_true_eq, Bool.not_eq_true'] at h1
  refine ⟨h1.1, ?_⟩
  intro hc
  rcases h1.2 with h2 | h2
  · rw [hc] at h2; cases h2
  · exact h2

/-- What `save_renlib` writes for a node on the board with a valid comment reference:
the prescribed bytes. -/
theorem save_node_bytes (comments : List (List Nat)) (n : Node) (out : List Nat)
    (hb : n.pos.position_null = true ∨ (n.pos.x < 15 ∧ n.pos.y < 15))
    (hc : n.has_comment = true → n.tag_comment < comments.length) :
    (if n.has_comment then
       (comments[n.tag_comment]?).map (fun cmt => out ++ save_record n ++ cmt ++ [0])
     else some (out ++ save_record n)) = some (out ++ spec_node_bytes comments n) := by
  rw [save_record_eq_spec n hb]
  unfold spec_node_bytes
  cases hhc : n.has_comment with
  | false => simp
  | true =>
    have hlt := hc hhc
    simp [List.getElem?_eq_getElem hlt, List.getD_eq_getElem?_getD]

/-- The encoding walk over a shape: it writes the prescribed bytes of the nodes of the
shape in preorder and then stops, when the stack is empty, or resumes at the next
sibling of the popped node. -/
theorem save_loop_shape (h : List (Option Node)) (comments : List (List Nat)) (w : LT) :
    ∀ (a : Nat) (st out : List Nat) (fuel : Nat), w.root = some a → w.models h = true →
      nodes_ok h comments w.addrs = true →
      save_loop h comments (fuel + w.addrs.length) (some a) st out =
        match st with
        | [] => some (out ++ spec_encode h comments w.preorder)
        | top :: rest =>
          match node_at h top with
          | none => none
          | some nt =>
            save_loop h comments fuel nt.right rest
              (out ++ spec_encode h comments w.preorder) := by
  induction w with
  | nil => intro a st out fuel hroot; simp [LT.root] at hroot
  | node b d r ihd ihr =>
    intro a st out fuel hroot hm hok
    simp only [LT.root, Option.some.injEq] at hroot
    subst hroot
    obtain ⟨n, hn, hdown, hright, hmd, hmr⟩ := models_node.mp hm
    obtain ⟨hokd, hokr, hnode⟩ := nodes_ok_node hok
    obtain ⟨hb, hc⟩ := hnode n hn
    have henc : ∀ out1 : List Nat,
        out ++ spec_encode h comments (LT.node b d r).preorder =
          out ++ spec_node_bytes comments n ++ spec_encode h comments d.preorder
            ++ spec_encode h comments r.preorder := by
      intro out1
      simp only [LT.preorder, spec_encode, hn, spec_encode_append, List.append_assoc]
    -- what follows once the node and its children are written
    have hrest : ∀ out1 : List Nat,
        (match (if n.right ≠ none then (some b).toList ++ st else st) with
         | [] => some out1
         | top :: rest =>
           match node_at h top with
           | none => none
           | some nt => save_loop h comments (fuel + r.addrs.length) nt.right rest out1) =
        match st with
        | [] => some (out1 ++ spec_encode h comments r.preorder)
        | top :: rest =>
          match node_at h top with
          | none => none
          | some nt =>
            save_loop h comments fuel nt.right rest
              (out1 ++ spec_encode h comments r.preorder) := by
      intro out1
      cases hrr : r with
      | nil =>
        rw [hrr] at hright
        simp only [LT.root] at hright
        simp [hright, LT.addrs, LT.preorder, spec_encode]
      | node c rd rr =>
        have hrroot : r.root = some c := by rw [hrr]; rfl
        rw [hrroot] at hright
        simp only [hright, ne_eq, not_false_eq_true, if_true, Option.toList, List.singleton_append,
          hn, reduceCtorEq]
        rw [← hrr]
        exact ihr c st out1 fuel hrroot hmr hokr
    have hlen : fuel + (LT.node b d r).addrs.length
        = (fuel + r.addrs.length + d.addrs.length) + 1 := by
      simp only [LT.addrs, List.length_append, List.length_cons]
      omega
    rw [hlen, save_loop_succ]
    simp only [deref, hn, save_node_bytes comments n out hb hc]
    rw [henc out]
    cases hdd : d with
    | nil =>
      rw [hdd] at hdown
      simp only [LT.root] at hdown
      simp only [hdown, LT.addrs, List.length_nil, Nat.add_zero, LT.preorder, spec_encode,
        List.append_nil]
      exact hrest _
    | node c dd dr =>
      have hdroot : d.root = some c := by rw [hdd]; rfl
      rw [hdroot] at hdown
      simp only [hdown]
      rw [← hdd, ihd c _ _ (fuel + r.addrs.length) hdroot hmd hokd]
      rw [hrest]

/-! ## Query from the root returns -/

/-- Every node of the sibling chain of a sub-shape heads a sub-shape of the same
depth. -/
theorem spine_sub {t : LT} (w : LT) : ∀ (k : Nat), Sub t k w →
    ∀ c ∈ w.spine, ∃ v, Sub t k v ∧ v.root = some c := by
  induction w with
  | nil => intro k hw; obtain ⟨_, _, _, hcon⟩ := hw.is_node; cases hcon
  | node p d r _ ihr =>
    intro k hw c hc
    simp only [LT.spine, List.mem_cons] at hc
    rcases hc with rfl | hc
    · exact ⟨_, hw, rfl⟩
    · cases hrr : r with
      | nil => rw [hrr] at hc; simp [LT.spine] at hc
      | node c1 rd rr =>
        exact ihr k (hw.to_right p d r c1 rd rr rfl hrr) c hc

/-- The scan of `query(Move)` along the sibling chain of a shape returns `NULL` or a node
of the chain. -/
theorem query_scan_total {h : List (Option Node)} (m : Move) :
    ∀ (w : LT) (fuel : Nat), w.models h = true → w.spine.length < fuel →
      ∃ r, query_scan h m fuel w.root = some r ∧ ∀ c, r = some c → c ∈ w.spine := by
  intro w
  induction w with
  | nil =>
    intro fuel _ hfuel
    obtain ⟨f, rfl⟩ : ∃ f, fuel = f + 1 := ⟨fuel - 1, by omega⟩
    exact ⟨none, rfl, fun c hc => by cases hc⟩
  | node p d r _ ihr =>
    intro fuel hm hfuel
    obtain ⟨n, hn, -, hr, -, hmr⟩ := models_node.mp hm
    simp only [LT.spine, List.length_cons] at hfuel
    obtain ⟨f, rfl⟩ : ∃ f, fuel = f + 1 := ⟨fuel - 1, by omega⟩
    simp only [LT.root]
    rw [query_scan_succ_some, hn]
    simp only
    by_cases hpm : n.pos = m
    · rw [if_pos hpm]
      exact ⟨some p, rfl, fun c hc => by
        simp only [Option.some.injEq] at hc; subst hc; simp [LT.spine]⟩
    · rw [if_neg hpm, hr]
      obtain ⟨res, hres, hmem⟩ := ihr f hmr (by omega)
      exact ⟨res, hres, fun c hc => by simp [LT.spine, hmem c hc]⟩

theorem sub_spine_fuel {t u : LT} {s : Tree} {k : Nat} (inv : CursorInv t s)
    (hu : Sub t k u) : u.spine.length < s.heap.length + 1 := by
  have h1 := spine_length_le u
  have h2 := hu.size_le
  have h3 := models_size_le inv.shape.2.1 inv.shape.2.2.1
  omega

theorem query_Move_inv {t : LT} {s : Tree} (inv : CursorInv t s) (m : Move) :
    ∃ r s1, query_Move m s = some (r, s1) ∧ CursorInv t s1 ∧ (r = none → s1 = s) := by
  obtain ⟨a, d, r, n, hsub, hpos, hn, hd, hr, hmd, hmr⟩ := inv.current
  cases hdd : d with
  | nil =>
    rw [hdd] at hd
    refine ⟨none, s, ?_, inv, fun _ => rfl⟩
    simp only [query_Move, hpos, hn, hd, LT.root]
  | node c dd dr =>
    have hsub1 : Sub t (s.cdepth + 1) d := hsub.to_down a d r c dd dr rfl hdd
    have hlt := hsub1.height_lt
    have hseq := inv.cap_seq
    have hdep := inv.cap_depth
    have hmod : (s.cdepth + 1) % 65536 = s.cdepth + 1 := Nat.mod_eq_of_lt (by omega)
    obtain ⟨res, hres, hmem⟩ := query_scan_total m d (s.heap.length + 1) hmd
      (sub_spine_fuel inv hsub1)
    have hdroot : d.root = some c := by rw [hdd]; rfl
    rw [hdroot] at hd hres
    cases res with
    | none =>
      refine ⟨none, s, ?_, inv, fun _ => rfl⟩
      simp only [query_Move, hpos, hn, hd, hres]
    | some p =>
      obtain ⟨v, hv, hvroot⟩ := spine_sub d (s.cdepth + 1) hsub1 p (hmem p rfl)
      refine ⟨some p, { s with ppos := some p, cdepth := s.cdepth + 1,
                               seq := s.seq.set (s.cdepth + 1) (some p),
                               crec := s.crec.domove m }, ?_, ?_, fun hb => by cases hb⟩
      · simp only [query_Move, hpos, hn, hd, hres, hmod]
        rw [if_pos (by omega)]
      · refine ⟨inv.shape, ?_, hdep, ⟨v, hv, hvroot.symm⟩, ?_, ?_⟩
        · simpa using hseq
        · intro i hi
          simp only at hi
          by_cases hik : i = s.cdepth + 1
          · subst hik
            refine ⟨v, hv, ?_⟩
            simp only
            rw [List.getElem?_set_self (by omega), hvroot]
          · obtain ⟨u, hu, hsu⟩ := inv.path i (by omega)
            refine ⟨u, hu, ?_⟩
            simp only
            rw [List.getElem?_set_ne (by omega)]
            exact hsu
        · simp [Recording.domove, inv.len]

theorem scan_right_succ (m : Move) (fuel : Nat) (s : Tree) :
    scan_right m (fuel + 1) s =
      match deref s.heap s.ppos with
      | none => none
      | some n =>
        if m = n.pos then some (true, s)
        else
          match pos_move_right s with
          | none => none
          | some (true, s1) => scan_right m fuel s1
          | some (false, s1) => some (false, s1) := rfl

/-- The inner loop of `query(const Recording*)` returns and keeps the invariant. -/
theorem scan_right_inv {t : LT} (m : Move) (u : LT) : ∀ (fuel : Nat) (s : Tree),
    CursorInv t s → Sub t s.cdepth u → s.ppos = u.root → u.spine.length ≤ fuel →
    ∃ b s1, scan_right m fuel s = some (b, s1) ∧ CursorInv t s1 := by
  induction u with
  | nil => intro fuel s _ hu; obtain ⟨_, _, _, hcon⟩ := hu.is_node; cases hcon
  | node a d r _ ihr =>
    intro fuel s inv hu hpos hfuel
    obtain ⟨n, hn, -, hr, -, hmr⟩ := models_node.mp (hu.models_of inv.shape.2.1)
    simp only [LT.spine, List.length_cons] at hfuel
    obtain ⟨f, rfl⟩ : ∃ f, fuel = f + 1 := ⟨fuel - 1, by omega⟩
    simp only [LT.root] at hpos
    rw [scan_right_succ]
    simp only [hpos, deref, hn]
    by_cases hm : m = n.pos
    · rw [if_pos hm]; exact ⟨true, s, rfl, inv⟩
    · rw [if_neg hm]
      obtain ⟨b, s1, hcall, inv1, -⟩ := pos_move_right_inv inv
      cases hrr : r with
      | nil =>
        rw [hrr] at hr
        simp only [LT.root] at hr
        have hfalse : pos_move_right s = some (false, s) := by
          simp only [pos_move_right, hpos, hn, hr]
        rw [hfalse]
        exact ⟨false, s, rfl, inv⟩
      | node c rd rr =>
        have hur : Sub t s.cdepth r := hu.to_right a d r c rd rr rfl hrr
        have hrroot : r.root = some c := by rw [hrr]; rfl
        rw [hrroot] at hr
        have hmr1 := hur.models_of inv.shape.2.1
        rw [hrr] at hmr1
        obtain ⟨nr, hnr, -⟩ := models_node.mp hmr1
        have htrue : pos_move_right s =
            some (true, { s with ppos := some c, crec := s.crec.undo.domove nr.pos }) := by
          simp only [pos_move_right, hpos, hn, hr, hnr]
        rw [htrue] at hcall
        simp only [Option.some.injEq, Prod.mk.injEq] at hcall
        obtain ⟨-, rfl⟩ := hcall
        rw [htrue]
        simp only
        exact ihr f _ inv1 hur hrroot.symm (by omega)

/-- The matching loop of `query(const Recording*)` returns and keeps the invariant. -/
theorem query_walk_inv {t : LT} (rest : List Move) : ∀ (mcnt : Nat) (s : Tree),
    CursorInv t s → ∃ n s1, query_walk rest mcnt s = some (n, s1) ∧ CursorInv t s1 := by
  induction rest with
  | nil => intro mcnt s inv; exact ⟨mcnt, s, rfl, inv⟩
  | cons m rest ih =>
    intro mcnt s inv
    obtain ⟨a, d, r, n, hsub, hpos, hn, hd, hr, hmd, hmr⟩ := inv.current
    cases hdn : n.down with
    | none =>
      refine ⟨mcnt, s, ?_, inv⟩
      simp only [query_walk, hpos, deref, hn, hdn]
    | some c =>
      obtain ⟨b1, s1, hdown, inv1, -⟩ := pos_move_down_inv inv
      obtain ⟨u, hu, hupos⟩ := inv1.pos
      obtain ⟨b2, s2, hscan, inv2⟩ := scan_right_inv m u (s1.heap.length + 1) s1 inv1 hu hupos
        (by have := sub_spine_fuel inv1 hu; omega)
      simp only [query_walk, hpos, deref, hn, hdn, hdown, hscan]
      cases b2 with
      | true => exact ih (mcnt + 1) s2 inv2
      | false =>
        obtain ⟨b3, s3, hup, inv3, -⟩ := pos_move_up_inv inv2
        simp only [hup]
        exact ⟨mcnt, s3, rfl, inv3⟩

/-- From the root of a pure tree that fits the path array `query` returns for every
recording. -/
theorem query_at_root_total {t : LT} {s : Tree} (inv : CursorInv t s)
    (hroot : s.ppos = s.proot) (record : Recording) (k : Nat) :
    ∃ n s1, query (k + 1) record s = some (n, s1) := by
  obtain ⟨a, d, r, n, hsub, hpos, hn, hd, hr, hmd, hmr⟩ := inv.current
  have hproot : s.proot = some a := by rw [← hroot, hpos]
  by_cases hrec : record.length < 1
  · exact ⟨0, s, by simp only [query, hrec, if_true]⟩
  · cases hdn : n.down with
    | none =>
      exact ⟨0, s, by simp only [query, hrec, if_false, hproot, deref, hn, hdn, if_true]⟩
    | some c =>
      obtain ⟨res, s1, hq, inv1, hnone⟩ := query_Move_inv inv (record.headD Move.null_position)
      cases res with
      | none =>
        have hs1 := hnone rfl
        subst hs1
        refine ⟨0, s1, ?_⟩
        simp only [query, hrec, if_false, hproot, deref, hn, hdn, hpos, reduceCtorEq, hq,
          if_true]
      | some p =>
        obtain ⟨cnt, s2, hwalk, -⟩ := query_walk_inv (record.drop 1) 1 s1 inv1
        refine ⟨cnt, s2, ?_⟩
        simp only [query, hrec, if_false, hproot, deref, hn, hdn, hpos, reduceCtorEq, hq]
        exact hwalk

/-! ## The encoded stream -/

theorem nodes_ok_kids {h : List (Option Node)} {comments : List (List Nat)} {t : LT}
    (hok : nodes_ok h comments t.addrs = true) : nodes_ok h comments t.kids.addrs = true := by
  cases t with
  | nil => exact hok
  | node a d r => exact (nodes_ok_node hok).1

/-- The traversal start of `save_renlib` is the root of the shape the specification
names. -/
theorem save_start_shape {s : Tree} {t : LT} (hshape : TreeShape s t) :
    save_start s.heap s.proot = some (save_shape s.heap t).root ∧
    (save_shape s.heap t).root ≠ none ∧
    (save_shape s.heap t).models s.heap = true ∧
    (save_shape s.heap t).addrs.length ≤ t.addrs.length := by
  obtain ⟨hroot, hm, hnd, hrt⟩ := hshape
  obtain ⟨a, d, rfl⟩ := rooted_eq hrt
  obtain ⟨n, hn, hd, -, hmd, -⟩ := models_node.mp hm
  have hproot : s.proot = some a := by rw [hroot]; rfl
  cases hdd : d with
  | nil =>
    rw [hdd] at hd hm
    simp only [LT.root] at hd
    refine ⟨?_, ?_, ?_, ?_⟩
    · simp [save_start, hproot, deref, hn, hd, save_shape, is_standard, LT.root]
    · simp [save_shape, is_standard, LT.root]
    · simpa [save_shape, is_standard] using hm
    · simp [save_shape, is_standard]
  | node c dd dr =>
    rw [hdd] at hd hmd hm
    simp only [LT.root] at hd
    obtain ⟨nc, hnc, -, hcr, -, -⟩ := models_node.mp hmd
    by_cases hstd : nc.pos = ⟨7, 7⟩ ∧ nc.right = none
    · have hdr : dr = LT.nil := by
        cases dr with
        | nil => rfl
        | node _ _ _ => rw [hstd.2] at hcr; simp [LT.root] at hcr
      subst hdr
      have his : is_standard s.heap (LT.node a (LT.node c dd LT.nil) LT.nil) = true := by
        simp [is_standard, hnc, hstd.1]
      refine ⟨?_, ?_, ?_, ?_⟩
      · simp [save_start, hproot, deref, hn, hd, hnc, hstd, save_shape, his, LT.kids, LT.root]
      · simp [save_shape, his, LT.kids, LT.root]
      · simpa [save_shape, his, LT.kids] using hmd
      · simp [save_shape, his, LT.kids, LT.addrs]
    · have his : is_standard s.heap (LT.node a (LT.node c dd dr) LT.nil) = false := by
        cases dr with
        | nil =>
          have : nc.pos ≠ ⟨7, 7⟩ := by
            intro hp; exact hstd ⟨hp, by simpa [LT.root] using hcr⟩
          simp [is_standard, hnc, this]
        | node _ _ _ => simp [is_standard]
      refine ⟨?_, ?_, ?_, ?_⟩
      · simp [save_start, hproot, deref, hn, hd, hnc, hstd, save_shape, his, LT.root]
      · simp [save_shape, his, LT.root]
      · simpa [save_shape, his] using hm
      · simp [save_shape, his]

theorem nodes_ok_save_shape {h : List (Option Node)} {comments : List (List Nat)} {t : LT}
    (hok : nodes_ok h comments t.addrs = true) :
    nodes_ok h comments (save_shape h t).addrs = true := by
  unfold save_shape
  split
  · exact nodes_ok_kids hok
  · exact hok

/-- The bytes `save_renlib` writes for a pure tree on the board that fits the path array:
the header and the prescribed bytes of the nodes of the walked shape in preorder. -/
theorem save_renlib_output {s : Tree} {t : LT} (hshape : TreeShape s t)
    (hbs : s.board_size = 15) (hok : nodes_ok s.heap s.comments t.addrs = true)
    (hcap : t.height ≤ s.seq.length) (hcap1 : t.height ≤ 65536) :
    ∃ s1, save_renlib s =
      some (Outcome.returned
        (true, Renlib_Header ++ spec_encode s.heap s.comments (save_shape s.heap t).preorder)
        s1) := by
  obtain ⟨hstart, hne, hmod, hsize⟩ := save_start_shape hshape
  obtain ⟨sa, hsa, inv, -, -, hpos⟩ := cursor_inv_at_root hshape hcap hcap1
  obtain ⟨cnt, s2, hq⟩ := query_at_root_total inv hpos s.crec 1
  have hlen := models_size_le hshape.2.1 hshape.2.2.1
  obtain ⟨a, ha⟩ : ∃ a, (save_shape s.heap t).root = some a := by
    cases hr : (save_shape s.heap t).root with
    | none => exact absurd hr hne
    | some a => exact ⟨a, rfl⟩
  have hfuel : s.heap.length + 1 =
      (s.heap.length + 1 - (save_shape s.heap t).addrs.length)
        + (save_shape s.heap t).addrs.length := by omega
  have hloop := save_loop_shape s.heap s.comments (save_shape s.heap t) a [] Renlib_Header
    (s.heap.length + 1 - (save_shape s.heap t).addrs.length) ha hmod (nodes_ok_save_shape hok)
  rw [← hfuel] at hloop
  simp only at hloop
  refine ⟨s2, ?_⟩
  unfold save_renlib
  rw [if_neg (by simp [hbs]), hstart, ha]
  simp only [hloop, hsa, hq]


/-- C15: for every 15x15 store that is a pure tree on the board (valid comment
references, depth within the path array) `save_renlib` returns true and writes the
header followed by bytes `out` such that: when the root has exactly one child and it
is at `(7,7)`, `out` starts with the record of that child, whose first byte is 120
(`x = 8`, `y = 7`) and whose `has_sibling` bit is clear, and goes on with its comment
and its subtree; when moreover that child has no child, no marks and no comment, `out`
is the two bytes 120, 64 (`is_leaf` set); and in every other tree whose root has the
null position, `out` starts with the two zero bytes of the root. -/
theorem standard_format_shortcut (s : Tree) (t : LT) (hshape : TreeShape s t)
    (hbs : s.board_size = 15) (hok : nodes_ok s.heap s.comments t.addrs = true)
    (hcap : t.height ≤ s.seq.length) (hcap1 : t.height ≤ 65536) :
    ∃ out s1, save_renlib s = some (Outcome.returned (true, Renlib_Header ++ out) s1) ∧
      (∀ a c dd nc, t = LT.node a (LT.node c dd LT.nil) LT.nil →
        node_at s.heap c = some nc → nc.pos = ⟨7, 7⟩ →
        out = [120, 4 * nc.marked_start.toNat + 8 * nc.has_comment.toNat
                      + 16 * nc.marked.toNat + 64 * (decide (nc.down = none)).toNat]
              ++ (if nc.has_comment then s.comments.getD nc.tag_comment [] ++ [0] else [])
              ++ spec_encode s.heap s.comments dd.preorder ∧
        (dd = LT.nil → nc.has_comment = false → nc.marked = false →
          nc.marked_start = false → out = [120, 64])) ∧
      (∀ rt, is_standard s.heap t = false → deref s.heap s.proot = some rt →
        rt.pos.position_null = true → ∃ rest, out = 0 :: 0 :: rest) := by
  obtain ⟨s1, hsave⟩ := save_renlib_output hshape hbs hok hcap hcap1
  refine ⟨_, s1, hsave, ?_, ?_⟩
  · intro a c dd nc ht hnc hpos
    subst ht
    obtain ⟨n, hn, hd, -, hmd, -⟩ := models_node.mp hshape.2.1
    obtain ⟨nc1, hnc1, hcd, hcr, -, -⟩ := models_node.mp hmd
    rw [hnc] at hnc1
    simp only [Option.some.injEq] at hnc1
    subst hnc1
    simp only [LT.root] at hcr
    have his : is_standard s.heap (LT.node a (LT.node c dd LT.nil) LT.nil) = true := by
      simp [is_standard, hnc, hpos]
    have hrec : spec_record nc =
        [120, 4 * nc.marked_start.toNat + 8 * nc.has_comment.toNat
                + 16 * nc.marked.toNat + 64 * (decide (nc.down = none)).toNat] := by
      simp [spec_record, hpos, Move.position_null, Renlib_Node.bytes, hcr]
    have hout : spec_encode s.heap s.comments
        (save_shape s.heap (LT.node a (LT.node c dd LT.nil) LT.nil)).preorder =
        [120, 4 * nc.marked_start.toNat + 8 * nc.has_comment.toNat
                + 16 * nc.marked.toNat + 64 * (decide (nc.down = none)).toNat]
          ++ (if nc.has_comment then s.comments.getD nc.tag_comment [] ++ [0] else [])
          ++ spec_encode s.heap s.comments dd.preorder := by
      simp only [save_shape, his, if_true, LT.kids, LT.preorder, List.append_nil, spec_encode,
        hnc, spec_node_bytes, hrec]
    refine ⟨hout, ?_⟩
    intro hdd hc hmk hms
    subst hdd
    simp only [LT.root] at hcd
    rw [hout]
    simp [hc, hmk, hms, hcd, LT.preorder, spec_encode]
  · intro rt his hrt hnull
    obtain ⟨a, d, rfl⟩ := rooted_eq hshape.2.2.2
    have hproot : s.proot = some a := by rw [hshape.1]; rfl
    rw [hproot] at hrt
    simp only [deref] at hrt
    refine ⟨(if rt.has_comment then s.comments.getD rt.tag_comment [] ++ [0] else [])
      ++ spec_encode s.heap s.comments (d.preorder ++ LT.nil.preorder), ?_⟩
    simp only [save_shape, his, LT.preorder, spec_encode, hrt, spec_node_bytes, spec_record,
      hnull, if_true]
    simp

/-- The bytes written for `two_branches`: the zero record of the root, then `(3,3)`,
`(3,4)`, `(4,4)` and `(4,5)`. -/
theorem two_branches_stream :
    (save_renlib two_branches_state).bind Outcome.value
      = some (true, Renlib_Header ++ [0, 0, 180, 128, 164, 64, 165, 0, 149, 64]) ∧
    spec_encode two_branches_state.heap two_branches_state.comments
      (save_shape two_branches_state.heap two_branches_shape).preorder
      = [0, 0, 180, 128, 164, 64, 165, 0, 149, 64] :=
  ⟨by decide, by decide⟩

/-- C15, at the tree whose only content is the child `(7,7)`: the hypotheses hold and the
bytes after the header are 120, 64. -/
theorem standard_format_shortcut_witness :
    TreeShape center_leaf_state one_line_shape ∧
    center_leaf_state.board_size = 15 ∧
    nodes_ok center_leaf_state.heap center_leaf_state.comments one_line_shape.addrs = true ∧
    one_line_shape.height ≤ center_leaf_state.seq.length ∧
    one_line_shape.height ≤ 65536 ∧
    (save_renlib center_leaf_state).bind Outcome.value
      = some (true, Renlib_Header ++ [120, 64]) ∧
    ∃ out s1, save_renlib center_leaf_state
        = some (Outcome.returned (true, Renlib_Header ++ out) s1) ∧
      (∀ a c dd nc, one_line_shape = LT.node a (LT.node c dd LT.nil) LT.nil →
        node_at center_leaf_state.heap c = some nc → nc.pos = ⟨7, 7⟩ →
        out = [120, 4 * nc.marked_start.toNat + 8 * nc.has_comment.toNat
                      + 16 * nc.marked.toNat + 64 * (decide (nc.down = none)).toNat]
              ++ (if nc.has_comment then
                    center_leaf_state.comments.getD nc.tag_comment [] ++ [0] else [])
              ++ spec_encode center_leaf_state.heap center_leaf_state.comments dd.preorder ∧
        (dd = LT.nil → nc.has_comment = false → nc.marked = false →
          nc.marked_start = false → out = [120, 64])) ∧
      (∀ rt, is_standard center_leaf_state.heap one_line_shape = false →
        deref center_leaf_state.heap center_leaf_state.proot = some rt →
        rt.pos.position_null = true → ∃ rest, out = 0 :: 0 :: rest) :=
  ⟨by decide, by decide, by decide, by decide, by decide, by decide,
   standard_format_shortcut center_leaf_state one_line_shape
     (by decide) (by decide) (by decide) (by decide) (by decide)⟩

end Figrid
